import Mathlib

/-!
Verification of the Resolution & Caching Engine of the pandoc-reference-list
plugin (`src/bib/bibManager.ts`), as a shallow embedding in Lean 4.

The embedding follows the TypeScript source closely:
* JS `Set<string>` values are modelled as insertion-ordered duplicate-free
  `List String` with `addSet`.
* JS `Map` values are modelled as insertion-ordered association lists with
  `mapHas` / `mapGet` / `mapSet` (`set` replaces in place, new keys append).
* `undefined` / optional values are `Option`; a JS falsy-string check
  (`if (c.id)`) is modelled as a comparison with `""` on `String` or as
  `Option` absence, matching the source case by case.
* Asynchronous throwing helpers are modelled with `Option` / `Except`
  results; a thrown exception is the `none` / `.error` case.
* Effects that are externally observable (style/locale fetches, bibliography
  conversions, engine builds and invocations, DOM allocations, console
  errors, results dispatched to observers) are recorded in an explicit
  `Effects` record threaded through the functions.
* DOM documents produced by `DOMParser.parseFromString` are modelled by
  allocation identifiers (`Nat`) drawn from a counter, so that JS object
  identity is expressible.

The tokenizer/extractor (`src/parser/parser.ts`), the helpers module
(`src/bib/helpers.ts`), the citeproc driver (`src/parser/citeproc.ts`), the
`citeproc` engine itself and the `lru-cache` dependency are not part of the
provided sources; where their behaviour is needed it is modelled from the
spec, marked by doc comments starting with `Modelled from the spec:`.
-/

namespace PandocRefList

/-- JS `Set.add`: append if not already present (insertion order kept). -/
def addSet (l : List String) (x : String) : List String :=
  if l.contains x then l else l ++ [x]

/-- JS `Map.has`. -/
def mapHas {κ β : Type} [BEq κ] (m : List (κ × β)) (k : κ) : Bool :=
  m.any (fun p => p.1 == k)

/-- JS `Map.get`. -/
def mapGet {κ β : Type} [BEq κ] (m : List (κ × β)) (k : κ) : Option β :=
  (m.find? (fun p => p.1 == k)).map (fun p => p.2)

/-- JS `Map.set`: replace in place when the key exists, else append. -/
def mapSet {κ β : Type} [BEq κ] (m : List (κ × β)) (k : κ) (v : β) : List (κ × β) :=
  if m.any (fun p => p.1 == k) then
    m.map (fun p => if p.1 == k then (k, v) else p)
  else m ++ [(k, v)]

/-- Per-document override settings (`ScopedSettings` in bibManager.ts);
`none` fields are `undefined` in JS. `getScopedSettings` (which reads
frontmatter through the host app) is external; its result is a parameter. -/
structure ScopedSettings where
  style : Option String
  lang : Option String
  bibliography : Option String
deriving BEq, DecidableEq

/-- Modelled from the spec: `PartialCSLEntry` (src/bib/types.ts, not
provided) is a bibliography entry; the resolver only reads its `id`, and the
fuzzy index additionally weights `title` (§3, §4.5). -/
structure PartialCSLEntry where
  id : String
  title : String
deriving BEq, DecidableEq

/-- Modelled from the spec: a `Citation` record produced by the external
Citation Extractor (src/parser/parser.ts, not provided). Of its attributes
(§3) the resolver reads only `id`; the remaining attributes do not influence
any function embedded here and are omitted. -/
structure Citation where
  id : String
deriving BEq, DecidableEq

/-- Modelled from the spec: one citation group as returned by `getCitations`
for one segment run (§4.2); the resolver reads its `citations` list. -/
structure ProcessedGroup where
  citations : List Citation
deriving BEq, DecidableEq

/-- The `RenderedCitation` record (§3): output of rendering one citation group;
compared for change detection by deep value equality (`fast-deep-equal`),
modelled by the derived structural `BEq`. -/
structure RenderedCitation where
  citations : List Citation
  val : String
  fromPos : Nat
  toPos : Nat
  note : Option String
  noteIndex : Option Int
deriving BEq, DecidableEq

/-- Metadata part of the citeproc `makeBibliography` result: `bib[0]` with
`bibstart`, `bibend` and optional `entry_ids` (a list of id-arrays). -/
structure BibMeta where
  bibstart : String
  bibend : String
  entry_ids : Option (List (List String))
deriving BEq, DecidableEq

/-- Modelled from the spec: the opaque style engine (§4.4, §9) with its two
capabilities: render citations for a list of groups, and render the
bibliography. `bibResult = none` models citeproc returning a falsy value
from `makeBibliography`; `some (meta, entries)` the `[metadata, entries]`
array (which may carry zero entries). Rendering is deterministic: resolution
is a pure function of current inputs (§5). -/
structure Engine where
  renderCitations : List ProcessedGroup → List RenderedCitation
  bibResult : Option (BibMeta × List String)

/-- The per-scope source triple (`FileCache.source` in bibManager.ts):
bibliography lookup, fuse index (modelled by its collection) and engine.
When `loadScopedEngine` returns `this`, the manager's own global fields play
this role, see `globalSource`. -/
structure Source where
  bibCache : List (String × PartialCSLEntry)
  fuse : Option (List PartialCSLEntry)
  engine : Option Engine

/-- The `FileCache` record (bibManager.ts): one resolution result. `bib` is the DOM
element by allocation id (`none` = JS `null`). -/
structure FileCache where
  keys : List String
  resolvedKeys : List String
  unresolvedKeys : List String
  bib : Option Nat
  citations : List RenderedCitation
  citeBibMap : List (Option String × Option String)
  settings : Option ScopedSettings
  source : Source

/-- Modelled from the spec: the `lru-cache` dependency used for
`fileCache`, a capacity-bounded map with access-order tracking (§3, §5,
§9). `items` is kept most-recently-used first; `get` refreshes recency,
`set` inserts at the front and drops beyond `max`. Keys are the stable
document identities (file paths) standing in for `TFile` objects. -/
structure LRU (β : Type) where
  max : Nat
  items : List (String × β)

/-- LRU membership test (does not refresh recency). -/
def LRU.has {β : Type} (c : LRU β) (k : String) : Bool :=
  c.items.any (fun p => p.1 == k)

/-- LRU lookup, returning the value (if any) and the cache with refreshed
recency for the key. -/
def LRU.get {β : Type} (c : LRU β) (k : String) : Option β × LRU β :=
  match c.items.find? (fun p => p.1 == k) with
  | none => (none, c)
  | some p =>
    (some p.2, { c with items := (k, p.2) :: c.items.filter (fun q => q.1 != k) })

/-- LRU insertion: most-recent position, evicting beyond capacity. -/
def LRU.set {β : Type} (c : LRU β) (k : String) (v : β) : LRU β :=
  { c with items := ((k, v) :: c.items.filter (fun q => q.1 != k)).take c.max }

/-- Pure lookup of the stored value, without recency bookkeeping (used only
in specifications). -/
def LRU.peekVal {β : Type} (c : LRU β) (k : String) : Option β :=
  (c.items.find? (fun p => p.1 == k)).map (fun p => p.2)

/-- The mutable fields of `BibManager` that the embedded functions touch. -/
structure BibManagerState where
  fileCache : LRU FileCache
  langCache : List (String × String)
  styleCache : List (String × String)
  bibCache : List (String × PartialCSLEntry)
  fuse : Option (List PartialCSLEntry)
  engine : Option Engine

/-- Observable effects of a resolution pass: counters for style fetches,
locale fetches, bibliography conversions, engine constructions,
`loadScopedEngine` invocations, citation-render invocations (`cite`),
`makeBibliography` invocations, `console.error` calls and DOM allocations;
the argument lists passed to `cite`; the results dispatched to observers;
and the `source` binding chosen by the current `getReferenceList` pass. -/
structure Effects where
  styleFetches : Nat
  langFetches : Nat
  bibConverts : Nat
  engineBuilds : Nat
  scopeLoads : Nat
  citeCalls : Nat
  bibCalls : Nat
  consoleErrors : Nat
  allocCtr : Nat
  citeArgs : List (List ProcessedGroup)
  dispatches : List (String × FileCache)
  usedSource : Option Source

/-- External collaborators (§6): plugin settings, network/disk fetch of
style and locale documents, pandoc bibliography conversion, the citeproc
engine constructor, and citeproc's `CSL.LANGS` / `CSL.LANG_BASES` locale
tables. A `none` fetch result models a thrown exception. -/
structure Env where
  cslStyleURL : Option String
  cslLang : Option String
  styleFetch : Option String → Option String → Option String
  langFetch : String → Option String
  bibConvert : String → Option (List PartialCSLEntry)
  buildEngineFn : String → List (String × String) → String → List (String × String) →
    List (String × PartialCSLEntry) → Engine
  LANGS : List String
  LANG_BASES : List (String × String)

/-- Default CSL style URL from `loadScopedEngine` / `loadGlobalBibFile`. -/
def defaultStyleURL : String :=
  "https://raw.githubusercontent.com/citation-style-language/styles/master/apa.csl"

/-- JS `String.prototype.split(/\s+/)`: maximal whitespace runs are
delimiters; a leading or trailing run yields an empty token. -/
def splitWSAux : List Char → Bool → String → List String
  | [], _, cur => [cur]
  | c :: rest, prevWS, cur =>
    if c.isWhitespace then
      if prevWS then splitWSAux rest true cur
      else cur :: splitWSAux rest true ""
    else splitWSAux rest false (cur.push c)

/-- See `splitWSAux`. -/
def splitWS (s : String) : List String := splitWSAux s.data false ""

/-- Characters of the literal part of the regex `/locale="[^"]+"/`. -/
def localeAttrChars : List Char := "locale=\"".data

/-- Test whether the first list is a leading run of the second. -/
def startsWithChars : List Char → List Char → Bool
  | [], _ => true
  | _ :: _, [] => false
  | p :: ps, c :: cs => p == c && startsWithChars ps cs

/-- Read `[^"]+"`-style content: the characters up to (excluding) the next
double quote, requiring the quote to exist; also returns the remainder
after the quote. -/
def takeUntilQuote : List Char → Option (String × List Char)
  | [] => none
  | c :: rest =>
    if c == '"' then some ("", rest)
    else
      match takeUntilQuote rest with
      | none => none
      | some (s, rem) => some (String.mk (c :: s.data), rem)

/-- All matches of `/locale="[^"]+"/g` scanning left to right,
non-overlapping, with fuel for termination (the fuel is always sufficient,
see `findLocaleMatches`). -/
def findLocaleMatchesAux : Nat → List Char → List String
  | 0, _ => []
  | _ + 1, [] => []
  | fuel + 1, c :: rest =>
    if startsWithChars localeAttrChars (c :: rest) then
      match takeUntilQuote ((c :: rest).drop 8) with
      | some (content, rem) =>
        if content == "" then findLocaleMatchesAux fuel rest
        else ("locale=\"" ++ content ++ "\"") :: findLocaleMatchesAux fuel rem
      | none => findLocaleMatchesAux fuel rest
    else findLocaleMatchesAux fuel rest

/-- The regex test `/^http/.test(s)` from `loadScopedEngine`. -/
def testHttp (s : String) : Bool := startsWithChars "http".data s.data

/-- The `style.match(/locale="[^"]+"/g)` scan from `extractRawLocales`. -/
def findLocaleMatches (s : String) : List String :=
  findLocaleMatchesAux (s.data.length + 1) s.data

/-- The `normalizeLocales` helper (bibManager.ts): canonicalize each locale against
`CSL.LANGS`, falling back to `CSL.LANG_BASES`, deduplicating in insertion
order (the JS record keyed by locale). -/
def normalizeLocales (env : Env) (locales : List String) : List String :=
  locales.foldl (fun acc locale =>
    let l2 := String.intercalate "-" ((locale.splitOn "-").take 2)
    if env.LANGS.contains l2 then addSet acc l2
    else
      let l1 := ((locale.splitOn "-").headD "")
      match mapGet env.LANG_BASES l1 with
      | some base =>
        if base ≠ "" then addSet acc (String.intercalate "-" (base.splitOn "_"))
        else acc
      | none => acc) []

/-- The `extractRawLocales` helper (bibManager.ts): `en-US`, the document locale when
truthy, and every locale mentioned by the style text (each match stripped of
the `locale="` head and trailing quote and split on whitespace), normalized. -/
def extractRawLocales (env : Env) (style : String) (localeName : Option String) :
    List String :=
  let locales := ["en-US"]
  let locales :=
    match localeName with
    | some l => if l ≠ "" then locales ++ [l] else locales
    | none => locales
  let locales :=
    if style ≠ "" then
      (findLocaleMatches style).foldl (fun acc m =>
        acc ++ splitWS ((m.dropRight 1).drop 8)) locales
    else locales
  normalizeLocales env locales

/-- Style descriptor passed to `loadStyles` (`{ id?, explicitPath? }`). -/
structure StyleRef where
  id : Option String
  explicitPath : Option String

/-- Modelled from the spec: `getCSLStyle` lives in `src/bib/helpers.ts`,
which is not among the provided sources. Per §4.3 it fetches-or-reads the
style document once and memoizes it in the style cache under
`explicitPath` when provided and under `id` otherwise; a failed fetch
(`none`, modelling a throw) caches nothing ("Failure ... is not cached"). -/
def getCSLStyle (env : Env) (styleCache : List (String × String))
    (id explicitPath : Option String) : Option (List (String × String) × String) :=
  match env.styleFetch id explicitPath with
  | none => none
  | some doc =>
    some (mapSet styleCache ((explicitPath.orElse (fun _ => id)).getD "") doc, doc)

/-- Modelled from the spec: `getCSLLocale` lives in `src/bib/helpers.ts`,
which is not among the provided sources. Per §4.3 it fetches-or-reads the
locale document once and memoizes it in the locale cache under its id; a
failed fetch (`none`, modelling a throw) caches nothing. -/
def getCSLLocale (env : Env) (langCache : List (String × String)) (lang : String) :
    Option (List (String × String) × String) :=
  match env.langFetch lang with
  | none => none
  | some doc => some (mapSet langCache lang doc, doc)

/-- The `loadStyles` method (bibManager.ts): for each descriptor, skip when both `id`
and `explicitPath` are absent, skip without fetching when
`explicitPath ?? id` is already cached, else fetch through `getCSLStyle`,
collecting the fetched documents; a fetch failure propagates (result
`none`) with the state reached so far. -/
def loadStyles (env : Env) :
    BibManagerState → Effects → List StyleRef → List String →
    BibManagerState × Effects × Option (List String)
  | st, eff, [], acc => (st, eff, some acc)
  | st, eff, sr :: rest, acc =>
    if sr.id.isNone && sr.explicitPath.isNone then
      loadStyles env st eff rest acc
    else if mapHas st.styleCache ((sr.explicitPath.orElse (fun _ => sr.id)).getD "") then
      loadStyles env st eff rest acc
    else
      let eff := { eff with styleFetches := eff.styleFetches + 1 }
      match getCSLStyle env st.styleCache sr.id sr.explicitPath with
      | none => (st, eff, none)
      | some (sc, doc) =>
        loadStyles env { st with styleCache := sc } eff rest (acc ++ [doc])

/-- The `loadLangs` method (bibManager.ts): for each locale id, skip falsy ids, skip
without fetching when already cached, else fetch through `getCSLLocale`;
`false` in the result means a fetch threw. -/
def loadLangs (env : Env) :
    BibManagerState → Effects → List String → BibManagerState × Effects × Bool
  | st, eff, [] => (st, eff, true)
  | st, eff, lang :: rest =>
    if lang == "" then loadLangs env st eff rest
    else if mapHas st.langCache lang then loadLangs env st eff rest
    else
      let eff := { eff with langFetches := eff.langFetches + 1 }
      match getCSLLocale env st.langCache lang with
      | none => (st, eff, false)
      | some (lc, _) =>
        loadLangs env { st with langCache := lc } eff rest

/-- The `buildEngine` method (bibManager.ts): constructs a `CSL.Engine` bound to the
given locale, style and bibliography lookup; construction is delegated to
the external constructor and counted in the effect log. -/
def buildEngine (env : Env) (eff : Effects) (lang : String)
    (langCache : List (String × String)) (style : String)
    (styleCache : List (String × String))
    (bibCache : List (String × PartialCSLEntry)) : Effects × Engine :=
  ({ eff with engineBuilds := eff.engineBuilds + 1 },
   env.buildEngineFn lang langCache style styleCache bibCache)

/-- The manager itself viewed as a scope: when `loadScopedEngine` returns
`this`, the subsequent pass reads `source.bibCache`, `source.fuse` and
`source.engine` from the manager's global fields. -/
def globalSource (st : BibManagerState) : Source :=
  ⟨st.bibCache, st.fuse, st.engine⟩

/-- The bibliography step of `loadScopedEngine` followed by the engine
build: with a truthy bibliography override, convert it through `bibToCSL`
(`env.bibConvert`; a failure logs and returns the manager itself), build a
fresh id-keyed lookup and fuse index; else keep the global lookup and fuse.
Finally build the engine over the selected language, style and lookup. -/
def loadScopedBibStep (env : Env) (s : ScopedSettings)
    (bibCache0 : List (String × PartialCSLEntry))
    (fuse0 : Option (List PartialCSLEntry)) (st2 : BibManagerState)
    (eff2 : Effects) (style lang : String) : BibManagerState × Effects × Source :=
  match s.bibliography with
  | none =>
    let be := buildEngine env eff2 lang st2.langCache style st2.styleCache bibCache0
    (st2, be.1, ⟨bibCache0, fuse0, some be.2⟩)
  | some b =>
    if b == "" then
      let be := buildEngine env eff2 lang st2.langCache style st2.styleCache bibCache0
      (st2, be.1, ⟨bibCache0, fuse0, some be.2⟩)
    else
      let eff3 := { eff2 with bibConverts := eff2.bibConverts + 1 }
      match env.bibConvert b with
      | none =>
        (st2, { eff3 with consoleErrors := eff3.consoleErrors + 1 }, globalSource st2)
      | some bib =>
        let bc := bib.foldl (fun m e => mapSet m e.id e) []
        let be := buildEngine env eff3 lang st2.langCache style st2.styleCache bc
        (st2, be.1, ⟨bc, some bib, some be.2⟩)

/-- The language step of `loadScopedEngine`: with a truthy language
override, load the locale set (a failure logs and returns the manager
itself) and select the override language; else keep the global language;
then continue with the bibliography step. -/
def loadScopedLangStep (env : Env) (s : ScopedSettings) (lang0 : String)
    (bibCache0 : List (String × PartialCSLEntry))
    (fuse0 : Option (List PartialCSLEntry)) (st1 : BibManagerState)
    (eff1 : Effects) (style : String) (langs : List String) :
    BibManagerState × Effects × Source :=
  match s.lang with
  | none => loadScopedBibStep env s bibCache0 fuse0 st1 eff1 style lang0
  | some l =>
    if l == "" then loadScopedBibStep env s bibCache0 fuse0 st1 eff1 style lang0
    else
      match loadLangs env st1 eff1 langs with
      | (st2, eff2, true) => loadScopedBibStep env s bibCache0 fuse0 st2 eff2 style l
      | (st2, eff2, false) =>
        (st2, { eff2 with consoleErrors := eff2.consoleErrors + 1 }, globalSource st2)

/-- The `loadScopedEngine` method (bibManager.ts): with no scoped settings, return the
manager itself (the global scope). Otherwise resolve the style override
(loading it unless cached and extracting its raw locales; a load failure is
logged to the console and returns the manager itself), then the language
and bibliography steps (`loadScopedLangStep`, `loadScopedBibStep`),
building a fresh engine on success. -/
def loadScopedEngine (env : Env) (st : BibManagerState) (eff : Effects)
    (settings : Option ScopedSettings) : BibManagerState × Effects × Source :=
  let eff := { eff with scopeLoads := eff.scopeLoads + 1 }
  match settings with
  | none => (st, eff, globalSource st)
  | some s =>
    let style0 := env.cslStyleURL.getD defaultStyleURL
    let lang0 := env.cslLang.getD "en-US"
    let bibCache0 := st.bibCache
    let fuse0 := st.fuse
    let langs0 := [s.lang.getD ""]
    match s.style with
    | none => loadScopedLangStep env s lang0 bibCache0 fuse0 st eff style0 langs0
    | some sty =>
      if sty == "" then
        loadScopedLangStep env s lang0 bibCache0 fuse0 st eff style0 langs0
      else
        let isURL := testHttp sty
        let styleObj : StyleRef :=
          if isURL then ⟨some sty, none⟩ else ⟨some sty, some sty⟩
        match loadStyles env st eff [styleObj] [] with
        | (st', eff', none) =>
          (st', { eff' with consoleErrors := eff'.consoleErrors + 1 },
           globalSource st')
        | (st', eff', some styles) =>
          let langs := styles.foldl
            (fun _ styleStr => extractRawLocales env styleStr s.lang) langs0
          loadScopedLangStep env s lang0 bibCache0 fuse0 st' eff' sty langs

/-- Modelled from the spec: `cite` lives in `src/parser/citeproc.ts`, which
is not among the provided sources. Per §4.5/§9 it drives the engine over
the filtered citation groups, producing the ordered `RenderedCitation`
records; the invocation and its argument are recorded in the effect log. -/
def cite (eff : Effects) (eng : Engine) (groups : List ProcessedGroup) :
    Effects × List RenderedCitation :=
  ({ eff with citeCalls := eff.citeCalls + 1, citeArgs := eff.citeArgs ++ [groups] },
   eng.renderCitations groups)

/-- The engine's `makeBibliography()` call, recorded in the effect log. -/
def makeBibliography (eff : Effects) (eng : Engine) :
    Effects × Option (BibMeta × List String) :=
  ({ eff with bibCalls := eff.bibCalls + 1 }, eng.bibResult)

/-- The `citeKeys` collection loop of `getReferenceList`: every truthy
citation id of every group, deduplicated in first-occurrence order. -/
def collectKeys (processed : List ProcessedGroup) : List String :=
  processed.foldl (fun acc p =>
    p.citations.foldl (fun acc c => if c.id ≠ "" then addSet acc c.id else acc) acc) []

/-- The `areSettingsEqual` test of `getReferenceList`: optional-chained
field-wise equality of the three scoped-settings fields (missing objects
contribute `undefined` on all fields). -/
def scopedEq (a b : Option ScopedSettings) : Bool :=
  (a.bind (fun s => s.bibliography) == b.bind (fun s => s.bibliography)) &&
  (a.bind (fun s => s.style) == b.bind (fun s => s.style)) &&
  (a.bind (fun s => s.lang) == b.bind (fun s => s.lang))

/-- The `citeKeys.forEach` partition loop: each collected key goes to the
resolved or unresolved set according to the scope's bibliography lookup. -/
def partitionKeys (bc : List (String × PartialCSLEntry)) (citeKeys : List String) :
    List String × List String :=
  citeKeys.foldl (fun p k =>
    if mapHas bc k then (addSet p.1 k, p.2) else (p.1, addSet p.2 k)) ([], [])

/-- The `s.citations.every(...)` callback with its side effects: walk the
group's citations, recording each visited id as resolved or unresolved,
stopping (JS `every` short-circuit) at the first unresolved citation. -/
def groupEvery (bc : List (String × PartialCSLEntry)) :
    List Citation → List String → List String → Bool × List String × List String
  | [], rk, uk => (true, rk, uk)
  | c :: rest, rk, uk =>
    if mapHas bc c.id then groupEvery bc rest (addSet rk c.id) uk
    else (false, rk, addSet uk c.id)

/-- The `processed.filter(...)` loop: keep the groups whose every citation
resolves, threading the resolved/unresolved sets through `groupEvery`. -/
def filterAndRecord (bc : List (String × PartialCSLEntry))
    (processed : List ProcessedGroup) (rk uk : List String) :
    List ProcessedGroup × List String × List String :=
  processed.foldl (fun acc g =>
    let r := groupEvery bc g.citations acc.2.1 acc.2.2
    (if r.1 then acc.1 ++ [g] else acc.1, r.2.1, r.2.2)) ([], rk, uk)

/-- The `metadata.entry_ids?.forEach` loop: map each entry's first id to the
rendered entry at the same index. -/
def buildCiteBibMap (entry_ids : Option (List (List String)))
    (entries : List String) : List (Option String × Option String) :=
  match entry_ids with
  | none => []
  | some ids =>
    ids.enum.foldl (fun m p => mapSet m p.2.head? (entries.get? p.1)) []

/-- The `setNull` closure of `getReferenceList`: store and dispatch a
result with no bibliography, no citations and `settings: null`, carrying
whatever the key sets and cite/bib map hold at the call site, and make the
pass return `null`. -/
def setNull (file : String) (citeKeys rk uk : List String)
    (cbm : List (Option String × Option String)) (source : Source)
    (st : BibManagerState) (eff : Effects) :
    BibManagerState × Effects × Option Nat :=
  let result : FileCache := ⟨citeKeys, rk, uk, none, [], cbm, none, source⟩
  let st := { st with fileCache := st.fileCache.set file result }
  let eff := { eff with dispatches := eff.dispatches ++ [(file, result)] }
  (st, eff, none)

/-- The tail of `getReferenceList` after the `citations` render: on a falsy
`makeBibliography` result fall back to `setNull`; otherwise build the
cite-to-entry map and (when entries exist) parse the assembled HTML into a
fresh DOM element, store the assembled `FileCache`, dispatch it and return
its `bib`. -/
def renderAndStore (file : String) (s : Option ScopedSettings)
    (citeKeys rk uk : List String) (citations : List RenderedCitation)
    (source : Source) (eng : Engine) (st : BibManagerState) (eff : Effects) :
    BibManagerState × Effects × Option Nat :=
  let r := makeBibliography eff eng
  match r.2 with
  | none => setNull file citeKeys rk uk [] source st r.1
  | some (metadata, entries) =>
    let eff := r.1
    let cbm := buildCiteBibMap metadata.entry_ids entries
    let parsedEff : Option Nat × Effects :=
      if entries.length ≠ 0 then
        (some eff.allocCtr, { eff with allocCtr := eff.allocCtr + 1 })
      else (none, eff)
    let parsed := parsedEff.1
    let eff := parsedEff.2
    let result : FileCache := ⟨citeKeys, rk, uk, parsed, citations, cbm, s, source⟩
    let st := { st with fileCache := st.fileCache.set file result }
    let eff := { eff with dispatches := eff.dispatches ++ [(file, result)] }
    (st, eff, parsed)

/-- The body of `getReferenceList` after the `source` binding is chosen: a
scope without engine short-circuits through `setNull`; otherwise partition
the keys, filter the groups, render the citations, apply change suppression
(returning the cached `bib` object untouched when the cached citations are
deep-equal and settings unchanged), else render and store. -/
def finishPass (file : String) (s : Option ScopedSettings)
    (processed : List ProcessedGroup) (citeKeys : List String)
    (cachedDoc : Option FileCache) (aSE : Bool) (source : Source)
    (st : BibManagerState) (eff : Effects) :
    BibManagerState × Effects × Option Nat :=
  match source.engine with
  | none => setNull file citeKeys [] [] [] source st eff
  | some eng =>
    let rkuk := partitionKeys source.bibCache citeKeys
    let fr := filterAndRecord source.bibCache processed rkuk.1 rkuk.2
    let ec := cite eff eng fr.1
    let eff := ec.1
    let citations := ec.2
    match cachedDoc with
    | some cd =>
      if cd.citations == citations && aSE then (st, eff, cd.bib)
      else renderAndStore file s citeKeys fr.2.1 fr.2.2 citations source eng st eff
    | none => renderAndStore file s citeKeys fr.2.1 fr.2.2 citations source eng st eff

/-- The `getReferenceList` method (bibManager.ts). The tokenizer/extractor pipeline
(`getCitationSegments` / `getCitations`, external parser module) is
abstracted by passing its output `processed` directly, and the
frontmatter-derived `getScopedSettings` result is the `settings` argument.
An empty parse returns `null` untouched; otherwise collect the cited keys,
look up the cached entry (refreshing LRU recency), compare scoped settings
field-wise, reuse the cached scope exactly when a cached entry exists and
the settings agree (else build one through `loadScopedEngine`), and finish
the pass. The pass returns the new state, the effect log and the returned
bibliography element (`none` = JS `null`). -/
def getReferenceList (env : Env) (st : BibManagerState) (eff : Effects)
    (file : String) (processed : List ProcessedGroup)
    (settings : Option ScopedSettings) : BibManagerState × Effects × Option Nat :=
  if processed.length = 0 then (st, eff, none)
  else
    let citeKeys := collectKeys processed
    let gc := st.fileCache.get file
    let cachedDoc := gc.1
    let st1 := { st with fileCache := gc.2 }
    let aSE := scopedEq settings (cachedDoc.bind (fun c => c.settings))
    let chosen : BibManagerState × Effects × Source :=
      match cachedDoc with
      | some cd =>
        if aSE then (st1, eff, cd.source)
        else loadScopedEngine env st1 eff settings
      | none => loadScopedEngine env st1 eff settings
    let st2 := chosen.1
    let eff2 := { chosen.2.1 with usedSource := some chosen.2.2 }
    finishPass file settings processed citeKeys cachedDoc aSE chosen.2.2 st2 eff2

/-- JS `parseInt` on a string: optional leading whitespace and sign, then
decimal digits; `none` models `NaN`. -/
def parseIntJS (s : String) : Option Int :=
  let cs := s.data.dropWhile (fun c => c.isWhitespace)
  let signRest : Int × List Char :=
    match cs with
    | '-' :: rest => (-1, rest)
    | '+' :: rest => (1, rest)
    | _ => (1, cs)
  let digits := signRest.2.takeWhile (fun c => c.isDigit)
  if digits.isEmpty then none
  else
    some (signRest.1 *
      (Int.ofNat (digits.foldl (fun n c => n * 10 + (c.toNat - '0'.toNat)) 0)))

/-- The `getNoteForNoteIndex` method (bibManager.ts): `null` when the file has no
cache entry; otherwise `find` the citation whose `noteIndex` equals the
parsed index and read its `note` — the member access `cite.note` is
performed without checking that `find` succeeded, so a missing match is a
thrown `TypeError` (`.error`). A falsy note yields `null`; otherwise the
note body is parsed and returned (the parsed child nodes are modelled by
the note text). The LRU `get` refreshes recency, so the updated state is
returned alongside. -/
def getNoteForNoteIndex (st : BibManagerState) (file index : String) :
    BibManagerState × Except String (Option String) :=
  if ¬ st.fileCache.has file then (st, .ok none)
  else
    let gc := st.fileCache.get file
    let st := { st with fileCache := gc.2 }
    match gc.1 with
    | none => (st, .ok none)
    | some cache =>
      let noteIndex := parseIntJS index
      match cache.citations.find? (fun c =>
          match noteIndex with
          | some n => c.noteIndex == some n
          | none => false) with
      | none => (st, .error "TypeError: Cannot read properties of undefined")
      | some c =>
        match c.note with
        | none => (st, .ok none)
        | some note => if note = "" then (st, .ok none) else (st, .ok (some note))

/-- One resolution request: document identity, parsed citation groups and
scoped settings. -/
structure PassInput where
  file : String
  groups : List ProcessedGroup
  settings : Option ScopedSettings

/-- A sequence of `getReferenceList` passes. -/
def runPasses (env : Env) (st : BibManagerState) (eff : Effects) :
    List PassInput → BibManagerState × Effects
  | [] => (st, eff)
  | inp :: rest =>
    let r := getReferenceList env st eff inp.file inp.groups inp.settings
    runPasses env r.1 r.2.1 rest

/-- The `fileCache` as created by the `BibManager` constructor:
`new LRUCache({ max: 10 })`. -/
def newFileCache : LRU FileCache := ⟨10, []⟩

/-- The spec's Resolution Result invariant (§3):
`resolvedKeys ∪ unresolvedKeys = keys` and the two sets are disjoint. -/
def FileCacheInv (e : FileCache) : Prop :=
  (∀ k ∈ e.keys, k ∈ e.resolvedKeys ∨ k ∈ e.unresolvedKeys) ∧
  (∀ k ∈ e.resolvedKeys, k ∈ e.keys) ∧
  (∀ k ∈ e.unresolvedKeys, k ∈ e.keys) ∧
  (∀ k ∈ e.resolvedKeys, k ∉ e.unresolvedKeys)

instance (e : FileCache) : Decidable (FileCacheInv e) := by
  unfold FileCacheInv; infer_instance

/-- Zero-entry bibliography test on an engine: the entry list is empty both
when `makeBibliography` returns a falsy value and when it returns a result
carrying no entries. -/
def bibEntriesOf (eng : Engine) : List String :=
  match eng.bibResult with
  | none => []
  | some r => r.2

/-- The locale-loading walk of `loadLangs`, tracked on the cache alone:
skip falsy or cached ids, fetch the rest in order; `none` when some fetch
throws, else the final cache. -/
def langsLoadRes (env : Env) (langCache : List (String × String)) :
    List String → Option (List (String × String))
  | [] => some langCache
  | lang :: rest =>
    if lang == "" then langsLoadRes env langCache rest
    else if mapHas langCache lang then langsLoadRes env langCache rest
    else
      match env.langFetch lang with
      | none => none
      | some doc => langsLoadRes env (mapSet langCache lang doc) rest

/-- The locale list handed to the language step of `loadScopedEngine`
after the style step, as a function of the style cache: the single
document locale when there is no truthy style override or the style is
already cached (no fetch, so no raw-locale extraction), the extracted
locales of the fetched style otherwise, `none` when the style fetch
throws. -/
def styleStepLangs (env : Env) (styleCache : List (String × String))
    (so : ScopedSettings) : Option (List String) :=
  match so.style with
  | none => some [so.lang.getD ""]
  | some sty =>
    if sty == "" then some [so.lang.getD ""]
    else if mapHas styleCache sty then some [so.lang.getD ""]
    else
      match env.styleFetch (some sty)
        (if testHttp sty then none else some sty) with
      | none => none
      | some doc => some (extractRawLocales env doc so.lang)

/-- The language step of `loadScopedEngine` does not throw: either there is
no truthy language override, or the locale walk over the given list
succeeds. -/
def langStepOk (env : Env) (langCache : List (String × String))
    (langs : List String) : Option String → Prop
  | none => True
  | some l => (l == "") = true ∨ (langsLoadRes env langCache langs).isSome = true

/-- The style-load catch of `loadScopedEngine` fires: a truthy uncached
style override whose fetch throws. -/
def StyleLoadFails (env : Env) (styleCache : List (String × String))
    (so : ScopedSettings) : Prop :=
  ∃ sty, so.style = some sty ∧ (sty == "") = false ∧
    mapHas styleCache sty = false ∧
    env.styleFetch (some sty) (if testHttp sty then none else some sty) = none

/-- The locale-load catch of `loadScopedEngine` fires: the style step
completes, and the truthy language override's locale walk throws. -/
def LangLoadFails (env : Env) (styleCache langCache : List (String × String))
    (so : ScopedSettings) : Prop :=
  ∃ l langs, so.lang = some l ∧ (l == "") = false ∧
    styleStepLangs env styleCache so = some langs ∧
    langsLoadRes env langCache langs = none

/-- The bibliography-conversion catch of `loadScopedEngine` fires: the
style and language steps complete, and the truthy bibliography override's
conversion throws. -/
def BibConvertFails (env : Env) (styleCache langCache : List (String × String))
    (so : ScopedSettings) : Prop :=
  ∃ b langs, so.bibliography = some b ∧ (b == "") = false ∧
    styleStepLangs env styleCache so = some langs ∧
    langStepOk env langCache langs so.lang ∧
    env.bibConvert b = none

/-- Some step of scope construction in `loadScopedEngine` throws: the
style load, the locale load, or the bibliography conversion. -/
def ScopeLoadFails (env : Env) (styleCache langCache : List (String × String))
    (so : ScopedSettings) : Prop :=
  StyleLoadFails env styleCache so ∨ LangLoadFails env styleCache langCache so ∨
    BibConvertFails env styleCache langCache so

/-! Concrete data used by witnesses and counterexamples. -/

/-- A bibliography entry with id `a`. -/
def entryA : PartialCSLEntry := ⟨"a", "Title A"⟩

/-- A rendered citation for the key `a`. -/
def rc0 : RenderedCitation := ⟨[⟨"a"⟩], "(A, 2020)", 0, 5, none, some 1⟩

/-- Bibliography metadata listing the single entry id `a`. -/
def meta0 : BibMeta := ⟨"<div>", "</div>", some [["a"]]⟩

/-- An engine rendering `rc0` and one bibliography entry. -/
def eng0 : Engine := ⟨fun _ => [rc0], some (meta0, ["<entry-a>"])⟩

/-- An environment where every fetch succeeds. -/
def cenv : Env :=
  ⟨none, none, fun _ _ => some "<style/>", fun _ => some "<locale/>",
   fun _ => some [entryA], fun _ _ _ _ _ => eng0, [], []⟩

/-- An environment whose style fetch always throws. -/
def cenvFail : Env :=
  ⟨none, none, fun _ _ => none, fun _ => some "<locale/>",
   fun _ => some [entryA], fun _ _ _ _ _ => eng0, [], []⟩

/-- The empty effect log. -/
def eff0 : Effects := ⟨0, 0, 0, 0, 0, 0, 0, 0, 0, [], [], none⟩

/-- A manager state with a global engine and the key `a` in the global
bibliography. -/
def cst : BibManagerState := ⟨newFileCache, [], [], [("a", entryA)], none, some eng0⟩

/-- A manager state whose global engine is absent (no bibliography
configured). -/
def cstNoEng : BibManagerState := ⟨newFileCache, [], [], [("a", entryA)], none, none⟩

/-- One citation group citing `a`. -/
def g1 : ProcessedGroup := ⟨[⟨"a"⟩]⟩

/-- Scoped settings carrying only a style override. -/
def sStyle : Option ScopedSettings := some ⟨some "mystyle", none, none⟩

/-- An engine whose `makeBibliography` returns a present result with zero
entries. -/
def engEmptyBib : Engine := ⟨fun _ => [rc0], some (⟨"<div>", "</div>", none⟩, [])⟩

/-- A manager state whose global engine is `engEmptyBib`. -/
def cstEmptyBib : BibManagerState :=
  ⟨newFileCache, [], [], [("a", entryA)], none, some engEmptyBib⟩

/-- The scope stored in `e0`. -/
def src0 : Source := ⟨[("a", entryA)], none, some eng0⟩

/-- A cached resolution result for key `a` with `bib` object `7` and no
scoped settings. -/
def e0 : FileCache := ⟨["a"], ["a"], [], some 7, [rc0], [], none, src0⟩

/-- A manager state whose file cache holds `e0` for file `f`. -/
def cstC1 : BibManagerState :=
  ⟨⟨10, [("f", e0)]⟩, [], [], [("a", entryA)], none, some eng0⟩

/-- A cached entry with no citations (so no note index can match). -/
def fcCrash : FileCache := ⟨["a"], ["a"], [], some 7, [], [], none, ⟨[], none, none⟩⟩

/-- A manager state whose file cache holds `fcCrash` for file `f`. -/
def cstCrash : BibManagerState := ⟨⟨10, [("f", fcCrash)]⟩, [], [], [], none, none⟩

/-- A full 10-entry file cache whose keys are `0` .. `9`. -/
def fullCache : LRU FileCache :=
  ⟨10, (List.range 10).map (fun i => (toString i, fcCrash))⟩

/-- A state for the memoization witness: style `s1` cached under its id,
locale `en-US` cached. -/
def cst9 : BibManagerState :=
  ⟨newFileCache, [("en-US", "<loc>")], [("s1", "<doc1>")], [], none, none⟩

/-- The entry stored by the pass `getReferenceList cenv cst eff0 "f" [g1]
none` (engine available, key `a` resolved). -/
def eW : FileCache :=
  ⟨["a"], ["a"], [], some 0, [rc0], [(some "a", some "<entry-a>")], none,
   ⟨[("a", entryA)], none, some eng0⟩⟩

/-! Infrastructure lemmas. -/

theorem mem_addSet {l : List String} {x y : String} :
    y ∈ addSet l x ↔ y ∈ l ∨ y = x := by
  unfold addSet
  split
  · next h =>
    have hx : x ∈ l := by simpa using h
    constructor
    · exact fun h' => Or.inl h'
    · rintro (h' | rfl) <;> assumption
  · simp

theorem addSet_subset {l : List String} {x y : String} (h : y ∈ l) :
    y ∈ addSet l x := mem_addSet.mpr (Or.inl h)

theorem lru_get_fst {β : Type} (c : LRU β) (k : String) :
    (c.get k).1 = c.peekVal k := by
  unfold LRU.get LRU.peekVal
  cases h : c.items.find? (fun p => p.1 == k) <;> simp [h]

theorem lru_get_max {β : Type} (c : LRU β) (k : String) :
    ((c.get k).2).max = c.max := by
  unfold LRU.get
  cases h : c.items.find? (fun p => p.1 == k) <;> simp [h]

theorem lru_set_max {β : Type} (c : LRU β) (k : String) (v : β) :
    (c.set k v).max = c.max := rfl

theorem filter_ne_length_lt {β : Type} {l : List (String × β)} {k : String}
    (h : l.any (fun p => p.1 == k) = true) :
    (l.filter (fun q => q.1 != k)).length < l.length := by
  induction l with
  | nil => simp at h
  | cons p rest ih =>
    by_cases hp : p.1 = k
    · have : (p.1 != k) = false := by simp [hp]
      simp only [List.filter_cons, this, Bool.false_eq_true, if_false]
      calc (rest.filter (fun q => q.1 != k)).length ≤ rest.length :=
            List.length_filter_le _ _
        _ < (p :: rest).length := by simp
    · have hp' : (p.1 != k) = true := by simp [hp]
      have hh : rest.any (fun p => p.1 == k) = true := by
        simp only [List.any_cons] at h
        rcases Bool.or_eq_true_iff.mp h with h1 | h2
        · exact absurd (by simpa using h1) hp
        · exact h2
      simp only [List.filter_cons, hp', if_true]
      simpa using Nat.succ_lt_succ (ih hh)

theorem lru_get_len_le {β : Type} (c : LRU β) (k : String) :
    ((c.get k).2).items.length ≤ c.items.length := by
  unfold LRU.get
  cases h : c.items.find? (fun p => p.1 == k) with
  | none => simp
  | some p =>
    have hm : c.items.any (fun q => q.1 == k) = true := by
      have hmem := List.mem_of_find?_eq_some h
      have hpk := List.find?_some h
      exact List.any_eq_true.mpr ⟨p, hmem, hpk⟩
    have := filter_ne_length_lt hm
    simpa using this

theorem lru_set_len_le {β : Type} (c : LRU β) (k : String) (v : β) :
    (c.set k v).items.length ≤ c.max := by
  unfold LRU.set
  exact List.length_take_le _ _

theorem lru_set_evict {β : Type} {c : LRU β} {k : String} (v : β)
    (hmax : c.max = 10) (hlen : c.items.length = 10) (hfresh : c.has k = false) :
    (c.set k v).items = (k, v) :: c.items.dropLast ∧
    (c.set k v).items.length = 10 := by
  have hall : ∀ q ∈ c.items, (q.1 != k) = true := by
    intro q hq
    have : ¬ (q.1 == k) = true := by
      intro hqk
      have : c.has k = true := List.any_eq_true.mpr ⟨q, hq, hqk⟩
      simp [this] at hfresh
    simp only [bne, Bool.not_eq_true'] at *
    simp [Bool.not_eq_true] at this ⊢
    exact this
  have hfilter : c.items.filter (fun q => q.1 != k) = c.items :=
    List.filter_eq_self.mpr hall
  unfold LRU.set
  rw [hfilter, hmax]
  constructor
  · show List.take 10 ((k, v) :: c.items) = (k, v) :: c.items.dropLast
    rw [List.take_cons]
    · rw [List.dropLast_eq_take, hlen]
    · omega
  · simp [List.length_take, hlen]

theorem loadStyles_shape (env : Env) (l : List StyleRef) :
    ∀ (st : BibManagerState) (eff : Effects) (acc : List String),
    ∃ sc m res, loadStyles env st eff l acc =
      ({ st with styleCache := sc }, { eff with styleFetches := m }, res) := by
  induction l with
  | nil =>
    intro st eff acc
    exact ⟨st.styleCache, eff.styleFetches, some acc, rfl⟩
  | cons sr rest ih =>
    intro st eff acc
    show ∃ sc m res, loadStyles env st eff (sr :: rest) acc = _
    unfold loadStyles
    split
    · exact ih st eff acc
    · split
      · exact ih st eff acc
      · cases hg : getCSLStyle env st.styleCache sr.id sr.explicitPath with
        | none =>
          refine ⟨st.styleCache, eff.styleFetches + 1, none, ?_⟩
          simp [hg]
        | some p =>
          obtain ⟨sc, m, res, hrec⟩ :=
            ih { st with styleCache := p.1 } { eff with styleFetches := eff.styleFetches + 1 }
              (acc ++ [p.2])
          refine ⟨sc, m, res, ?_⟩
          simp [hg, hrec]

theorem loadLangs_shape (env : Env) (l : List String) :
    ∀ (st : BibManagerState) (eff : Effects),
    ∃ lc m b, loadLangs env st eff l =
      ({ st with langCache := lc }, { eff with langFetches := m }, b) := by
  induction l with
  | nil =>
    intro st eff
    exact ⟨st.langCache, eff.langFetches, true, rfl⟩
  | cons lang rest ih =>
    intro st eff
    show ∃ lc m b, loadLangs env st eff (lang :: rest) = _
    unfold loadLangs
    split
    · exact ih st eff
    · split
      · exact ih st eff
      · cases hg : getCSLLocale env st.langCache lang with
        | none =>
          refine ⟨st.langCache, eff.langFetches + 1, false, ?_⟩
          simp [hg]
        | some p =>
          obtain ⟨lc, m, b, hrec⟩ :=
            ih { st with langCache := p.1 } { eff with langFetches := eff.langFetches + 1 }
          refine ⟨lc, m, b, ?_⟩
          simp [hg, hrec]

theorem loadScopedBibStep_shape (env : Env) (s : ScopedSettings)
    (bibCache0 : List (String × PartialCSLEntry))
    (fuse0 : Option (List PartialCSLEntry)) (st2 : BibManagerState)
    (eff2 : Effects) (style lang : String) :
    ∃ c d e srcv, loadScopedBibStep env s bibCache0 fuse0 st2 eff2 style lang =
      (st2, { eff2 with bibConverts := c, engineBuilds := d, consoleErrors := e },
       srcv) := by
  unfold loadScopedBibStep buildEngine
  split
  · exact ⟨eff2.bibConverts, eff2.engineBuilds + 1, eff2.consoleErrors, _, rfl⟩
  · split
    · exact ⟨eff2.bibConverts, eff2.engineBuilds + 1, eff2.consoleErrors, _, rfl⟩
    · cases henv : env.bibConvert _ with
      | none =>
        refine ⟨eff2.bibConverts + 1, eff2.engineBuilds, eff2.consoleErrors + 1,
          globalSource st2, ?_⟩
        simp [henv]
      | some bib =>
        refine ⟨eff2.bibConverts + 1, eff2.engineBuilds + 1, eff2.consoleErrors,
          ⟨bib.foldl (fun m e => mapSet m e.id e) [], some bib,
           some (env.buildEngineFn lang st2.langCache style st2.styleCache
             (bib.foldl (fun m e => mapSet m e.id e) []))⟩, ?_⟩
        simp [henv]

theorem loadScopedLangStep_shape (env : Env) (s : ScopedSettings) (lang0 : String)
    (bibCache0 : List (String × PartialCSLEntry))
    (fuse0 : Option (List PartialCSLEntry)) (st1 : BibManagerState)
    (eff1 : Effects) (style : String) (langs : List String) :
    ∃ lc b c d e srcv,
      loadScopedLangStep env s lang0 bibCache0 fuse0 st1 eff1 style langs =
      ({ st1 with langCache := lc },
       { eff1 with langFetches := b, bibConverts := c, engineBuilds := d,
                   consoleErrors := e }, srcv) := by
  unfold loadScopedLangStep
  cases hsl : s.lang with
  | none =>
    obtain ⟨c, d, e, srcv, h⟩ :=
      loadScopedBibStep_shape env s bibCache0 fuse0 st1 eff1 style lang0
    exact ⟨st1.langCache, eff1.langFetches, c, d, e, srcv, h⟩
  | some l =>
    by_cases hl : (l == "") = true
    · simp only [hl, if_true]
      obtain ⟨c, d, e, srcv, h⟩ :=
        loadScopedBibStep_shape env s bibCache0 fuse0 st1 eff1 style lang0
      exact ⟨st1.langCache, eff1.langFetches, c, d, e, srcv, h⟩
    · simp only [hl, if_false]
      obtain ⟨lc, m, bres, hLL⟩ := loadLangs_shape env langs st1 eff1
      rw [hLL]
      cases bres with
      | true =>
        obtain ⟨c, d, e, srcv, h⟩ :=
          loadScopedBibStep_shape env s bibCache0 fuse0
            { st1 with langCache := lc } { eff1 with langFetches := m } style l
        exact ⟨lc, m, c, d, e, srcv, h⟩
      | false =>
        exact ⟨lc, m, eff1.bibConverts, eff1.engineBuilds,
          eff1.consoleErrors + 1, globalSource { st1 with langCache := lc }, rfl⟩

/-- Lemma: `loadScopedEngine` only touches the style/locale caches and the fetch,
conversion, build, console and scope-load counters; in particular the file
cache, the global bibliography, fuse and engine, and the pass-local effect
fields (cite/bib calls, allocations, cite arguments, dispatches, chosen
source) are untouched, and exactly one scope load is recorded. -/
theorem loadScopedEngine_shape (env : Env) (st : BibManagerState) (eff : Effects)
    (settings : Option ScopedSettings) :
    ∃ lc sc a b c d e srcv, loadScopedEngine env st eff settings =
      ({ st with langCache := lc, styleCache := sc },
       { eff with styleFetches := a, langFetches := b, bibConverts := c,
                  engineBuilds := d, consoleErrors := e,
                  scopeLoads := eff.scopeLoads + 1 }, srcv) := by
  unfold loadScopedEngine
  cases settings with
  | none =>
    exact ⟨st.langCache, st.styleCache, eff.styleFetches, eff.langFetches,
      eff.bibConverts, eff.engineBuilds, eff.consoleErrors, globalSource st, rfl⟩
  | some s =>
    dsimp only
    cases hsty : s.style with
    | none =>
      obtain ⟨lc, b, c, d, e, srcv, h⟩ :=
        loadScopedLangStep_shape env s (env.cslLang.getD "en-US") st.bibCache st.fuse
          st { eff with scopeLoads := eff.scopeLoads + 1 }
          (env.cslStyleURL.getD defaultStyleURL) [s.lang.getD ""]
      exact ⟨lc, st.styleCache, eff.styleFetches, b, c, d, e, srcv, h⟩
    | some sty =>
      by_cases hempty : (sty == "") = true
      · simp only [hempty, if_true]
        obtain ⟨lc, b, c, d, e, srcv, h⟩ :=
          loadScopedLangStep_shape env s (env.cslLang.getD "en-US") st.bibCache st.fuse
            st { eff with scopeLoads := eff.scopeLoads + 1 }
            (env.cslStyleURL.getD defaultStyleURL) [s.lang.getD ""]
        exact ⟨lc, st.styleCache, eff.styleFetches, b, c, d, e, srcv, h⟩
      · simp only [hempty, if_false]
        obtain ⟨sc, m, res, hLS⟩ :=
          loadStyles_shape env
            [if testHttp sty then (⟨some sty, none⟩ : StyleRef)
             else ⟨some sty, some sty⟩]
            st { eff with scopeLoads := eff.scopeLoads + 1 } []
        rw [hLS]
        cases res with
        | none =>
          exact ⟨st.langCache, sc, m, eff.langFetches, eff.bibConverts,
            eff.engineBuilds, eff.consoleErrors + 1,
            globalSource { st with styleCache := sc }, rfl⟩
        | some styles =>
          obtain ⟨lc, b, c, d, e, srcv, h⟩ :=
            loadScopedLangStep_shape env s (env.cslLang.getD "en-US") st.bibCache
              st.fuse { st with styleCache := sc }
              { eff with scopeLoads := eff.scopeLoads + 1, styleFetches := m } sty
              (styles.foldl (fun _ styleStr => extractRawLocales env styleStr s.lang)
                [s.lang.getD ""])
          exact ⟨lc, sc, m, b, c, d, e, srcv, h⟩

theorem partitionFold_mem_left (bc : List (String × PartialCSLEntry))
    (ks : List String) :
    ∀ (acc : List String × List String) (x : String),
    (x ∈ (ks.foldl (fun p k =>
        if mapHas bc k then (addSet p.1 k, p.2) else (p.1, addSet p.2 k)) acc).1 ↔
      x ∈ acc.1 ∨ (x ∈ ks ∧ mapHas bc x = true)) := by
  induction ks with
  | nil => intro acc x; simp
  | cons k ks ih =>
    intro acc x
    rw [List.foldl_cons, ih]
    by_cases hk : mapHas bc k = true
    · simp only [hk, if_true]
      constructor
      · rintro (h | ⟨hks, hx⟩)
        · rcases mem_addSet.mp h with h' | rfl
          · exact Or.inl h'
          · exact Or.inr ⟨List.mem_cons_self _ _, hk⟩
        · exact Or.inr ⟨List.mem_cons_of_mem _ hks, hx⟩
      · rintro (h | ⟨hk', hx⟩)
        · exact Or.inl (addSet_subset h)
        · rcases List.mem_cons.mp hk' with rfl | hks
          · exact Or.inl (mem_addSet.mpr (Or.inr rfl))
          · exact Or.inr ⟨hks, hx⟩
    · simp only [hk, if_false]
      constructor
      · rintro (h | ⟨hks, hx⟩)
        · exact Or.inl h
        · exact Or.inr ⟨List.mem_cons_of_mem _ hks, hx⟩
      · rintro (h | ⟨hk', hx⟩)
        · exact Or.inl h
        · rcases List.mem_cons.mp hk' with rfl | hks
          · exact absurd hx hk
          · exact Or.inr ⟨hks, hx⟩

theorem partitionFold_mem_right (bc : List (String × PartialCSLEntry))
    (ks : List String) :
    ∀ (acc : List String × List String) (x : String),
    (x ∈ (ks.foldl (fun p k =>
        if mapHas bc k then (addSet p.1 k, p.2) else (p.1, addSet p.2 k)) acc).2 ↔
      x ∈ acc.2 ∨ (x ∈ ks ∧ mapHas bc x = false)) := by
  induction ks with
  | nil => intro acc x; simp
  | cons k ks ih =>
    intro acc x
    rw [List.foldl_cons, ih]
    by_cases hk : mapHas bc k = true
    · simp only [hk, if_true]
      constructor
      · rintro (h | ⟨hks, hx⟩)
        · exact Or.inl h
        · exact Or.inr ⟨List.mem_cons_of_mem _ hks, hx⟩
      · rintro (h | ⟨hk', hx⟩)
        · exact Or.inl h
        · rcases List.mem_cons.mp hk' with rfl | hks
          · rw [hk] at hx; cases hx
          · exact Or.inr ⟨hks, hx⟩
    · simp only [hk, if_false]
      have hk' : mapHas bc k = false := by
        cases h : mapHas bc k
        · rfl
        · exact absurd h hk
      constructor
      · rintro (h | ⟨hks, hx⟩)
        · rcases mem_addSet.mp h with h' | rfl
          · exact Or.inl h'
          · exact Or.inr ⟨List.mem_cons_self _ _, hk'⟩
        · exact Or.inr ⟨List.mem_cons_of_mem _ hks, hx⟩
      · rintro (h | ⟨hm, hx⟩)
        · exact Or.inl (addSet_subset h)
        · rcases List.mem_cons.mp hm with rfl | hks
          · exact Or.inl (mem_addSet.mpr (Or.inr rfl))
          · exact Or.inr ⟨hks, hx⟩

theorem groupEvery_fst (bc : List (String × PartialCSLEntry)) (cs : List Citation) :
    ∀ rk uk, (groupEvery bc cs rk uk).1 = cs.all (fun c => mapHas bc c.id) := by
  induction cs with
  | nil => intro rk uk; rfl
  | cons c rest ih =>
    intro rk uk
    by_cases hc : mapHas bc c.id = true
    · simp [groupEvery, hc, ih]
    · simp [groupEvery, hc]

theorem groupEvery_left_mono (bc : List (String × PartialCSLEntry))
    (cs : List Citation) :
    ∀ rk uk x, x ∈ rk → x ∈ (groupEvery bc cs rk uk).2.1 := by
  induction cs with
  | nil => intro rk uk x h; exact h
  | cons c rest ih =>
    intro rk uk x h
    by_cases hc : mapHas bc c.id = true
    · simp only [groupEvery, hc, if_true]
      exact ih _ _ _ (addSet_subset h)
    · simp only [groupEvery, hc, if_false]
      exact h

theorem groupEvery_right_mono (bc : List (String × PartialCSLEntry))
    (cs : List Citation) :
    ∀ rk uk x, x ∈ uk → x ∈ (groupEvery bc cs rk uk).2.2 := by
  induction cs with
  | nil => intro rk uk x h; exact h
  | cons c rest ih =>
    intro rk uk x h
    by_cases hc : mapHas bc c.id = true
    · simp only [groupEvery, hc, if_true]
      exact ih _ _ _ h
    · simp only [groupEvery, hc, if_false]
      exact addSet_subset h

theorem groupEvery_left_sub (bc : List (String × PartialCSLEntry))
    (cs : List Citation) :
    ∀ rk uk x, x ∈ (groupEvery bc cs rk uk).2.1 →
      x ∈ rk ∨ (mapHas bc x = true ∧ ∃ c ∈ cs, c.id = x) := by
  induction cs with
  | nil => intro rk uk x h; exact Or.inl h
  | cons c rest ih =>
    intro rk uk x h
    by_cases hc : mapHas bc c.id = true
    · simp only [groupEvery, hc, if_true] at h
      rcases ih _ _ _ h with h' | ⟨hx, c', hc', rfl⟩
      · rcases mem_addSet.mp h' with h'' | rfl
        · exact Or.inl h''
        · exact Or.inr ⟨hc, c, List.mem_cons_self _ _, rfl⟩
      · exact Or.inr ⟨hx, c', List.mem_cons_of_mem _ hc', rfl⟩
    · simp only [groupEvery, hc, if_false] at h
      exact Or.inl h

theorem groupEvery_right_sub (bc : List (String × PartialCSLEntry))
    (cs : List Citation) :
    ∀ rk uk x, x ∈ (groupEvery bc cs rk uk).2.2 →
      x ∈ uk ∨ (mapHas bc x = false ∧ ∃ c ∈ cs, c.id = x) := by
  induction cs with
  | nil => intro rk uk x h; exact Or.inl h
  | cons c rest ih =>
    intro rk uk x h
    by_cases hc : mapHas bc c.id = true
    · simp only [groupEvery, hc, if_true] at h
      rcases ih _ _ _ h with h' | ⟨hx, c', hc', rfl⟩
      · exact Or.inl h'
      · exact Or.inr ⟨hx, c', List.mem_cons_of_mem _ hc', rfl⟩
    · simp only [groupEvery, hc, if_false] at h
      rcases mem_addSet.mp h with h' | rfl
      · exact Or.inl h'
      · refine Or.inr ⟨?_, c, List.mem_cons_self _ _, rfl⟩
        cases hm : mapHas bc c.id
        · rfl
        · exact absurd hm hc

theorem farFold_fst (bc : List (String × PartialCSLEntry))
    (P : List ProcessedGroup) :
    ∀ (acc : List ProcessedGroup × List String × List String),
    (P.foldl (fun acc g =>
        let r := groupEvery bc g.citations acc.2.1 acc.2.2
        (if r.1 then acc.1 ++ [g] else acc.1, r.2.1, r.2.2)) acc).1 =
      acc.1 ++ P.filter (fun g => g.citations.all (fun c => mapHas bc c.id)) := by
  induction P with
  | nil => intro acc; simp
  | cons g ps ih =>
    intro acc
    rw [List.foldl_cons]
    rw [ih]
    by_cases hg : g.citations.all (fun c => mapHas bc c.id) = true
    · simp only [groupEvery_fst, hg, if_true, List.filter_cons, List.append_assoc,
        List.singleton_append]
    · simp only [groupEvery_fst, hg, if_false, List.filter_cons]
      simp only [Bool.false_eq_true] at hg ⊢
      simp [hg]

theorem farFold_left_mono (bc : List (String × PartialCSLEntry))
    (P : List ProcessedGroup) :
    ∀ (acc : List ProcessedGroup × List String × List String) (x : String),
    x ∈ acc.2.1 →
    x ∈ (P.foldl (fun acc g =>
        let r := groupEvery bc g.citations acc.2.1 acc.2.2
        (if r.1 then acc.1 ++ [g] else acc.1, r.2.1, r.2.2)) acc).2.1 := by
  induction P with
  | nil => intro acc x h; exact h
  | cons g ps ih =>
    intro acc x h
    rw [List.foldl_cons]
    exact ih _ _ (groupEvery_left_mono bc g.citations _ _ _ h)

theorem farFold_right_mono (bc : List (String × PartialCSLEntry))
    (P : List ProcessedGroup) :
    ∀ (acc : List ProcessedGroup × List String × List String) (x : String),
    x ∈ acc.2.2 →
    x ∈ (P.foldl (fun acc g =>
        let r := groupEvery bc g.citations acc.2.1 acc.2.2
        (if r.1 then acc.1 ++ [g] else acc.1, r.2.1, r.2.2)) acc).2.2 := by
  induction P with
  | nil => intro acc x h; exact h
  | cons g ps ih =>
    intro acc x h
    rw [List.foldl_cons]
    exact ih _ _ (groupEvery_right_mono bc g.citations _ _ _ h)

theorem farFold_left_sub (bc : List (String × PartialCSLEntry))
    (P : List ProcessedGroup) :
    ∀ (acc : List ProcessedGroup × List String × List String) (x : String),
    x ∈ (P.foldl (fun acc g =>
        let r := groupEvery bc g.citations acc.2.1 acc.2.2
        (if r.1 then acc.1 ++ [g] else acc.1, r.2.1, r.2.2)) acc).2.1 →
    x ∈ acc.2.1 ∨ (mapHas bc x = true ∧ ∃ g ∈ P, ∃ c ∈ g.citations, c.id = x) := by
  induction P with
  | nil => intro acc x h; exact Or.inl h
  | cons g ps ih =>
    intro acc x h
    rw [List.foldl_cons] at h
    rcases ih _ _ h with h' | ⟨hx, g', hg', c', hc', rfl⟩
    · rcases groupEvery_left_sub bc g.citations _ _ _ h' with h'' | ⟨hx, c', hc', rfl⟩
      · exact Or.inl h''
      · exact Or.inr ⟨hx, g, List.mem_cons_self _ _, c', hc', rfl⟩
    · exact Or.inr ⟨hx, g', List.mem_cons_of_mem _ hg', c', hc', rfl⟩

theorem farFold_right_sub (bc : List (String × PartialCSLEntry))
    (P : List ProcessedGroup) :
    ∀ (acc : List ProcessedGroup × List String × List String) (x : String),
    x ∈ (P.foldl (fun acc g =>
        let r := groupEvery bc g.citations acc.2.1 acc.2.2
        (if r.1 then acc.1 ++ [g] else acc.1, r.2.1, r.2.2)) acc).2.2 →
    x ∈ acc.2.2 ∨ (mapHas bc x = false ∧ ∃ g ∈ P, ∃ c ∈ g.citations, c.id = x) := by
  induction P with
  | nil => intro acc x h; exact Or.inl h
  | cons g ps ih =>
    intro acc x h
    rw [List.foldl_cons] at h
    rcases ih _ _ h with h' | ⟨hx, g', hg', c', hc', rfl⟩
    · rcases groupEvery_right_sub bc g.citations _ _ _ h' with h'' | ⟨hx, c', hc', rfl⟩
      · exact Or.inl h''
      · exact Or.inr ⟨hx, g, List.mem_cons_self _ _, c', hc', rfl⟩
    · exact Or.inr ⟨hx, g', List.mem_cons_of_mem _ hg', c', hc', rfl⟩

theorem collectInner_mono (cs : List Citation) :
    ∀ (a : List String) (x : String), x ∈ a →
    x ∈ cs.foldl (fun a c => if c.id ≠ "" then addSet a c.id else a) a := by
  induction cs with
  | nil => intro a x h; exact h
  | cons c rest ih =>
    intro a x h
    rw [List.foldl_cons]
    by_cases hc : c.id ≠ ""
    · rw [if_pos hc]
      exact ih _ _ (addSet_subset h)
    · rw [if_neg hc]
      exact ih _ _ h

theorem collectInner_mem (cs : List Citation) :
    ∀ (a : List String) (c : Citation), c ∈ cs → c.id ≠ "" →
    c.id ∈ cs.foldl (fun a c => if c.id ≠ "" then addSet a c.id else a) a := by
  induction cs with
  | nil => intro a c h; cases h
  | cons c' rest ih =>
    intro a c h hne
    rcases List.mem_cons.mp h with rfl | h'
    · rw [List.foldl_cons, if_pos hne]
      exact collectInner_mono rest _ _ (mem_addSet.mpr (Or.inr rfl))
    · rw [List.foldl_cons]
      exact ih _ _ h' hne

theorem collectFold_mono (P : List ProcessedGroup) :
    ∀ (a : List String) (x : String), x ∈ a →
    x ∈ P.foldl (fun acc p =>
      p.citations.foldl (fun acc c => if c.id ≠ "" then addSet acc c.id else acc) acc) a := by
  induction P with
  | nil => intro a x h; exact h
  | cons g ps ih =>
    intro a x h
    rw [List.foldl_cons]
    exact ih _ _ (collectInner_mono g.citations _ _ h)

theorem collectKeys_mem {P : List ProcessedGroup} {g : ProcessedGroup}
    {c : Citation} (hg : g ∈ P) (hc : c ∈ g.citations) (hne : c.id ≠ "") :
    c.id ∈ collectKeys P := by
  unfold collectKeys
  suffices h : ∀ (a : List String),
      c.id ∈ P.foldl (fun acc p =>
        p.citations.foldl (fun acc c => if c.id ≠ "" then addSet acc c.id else acc) acc) a by
    exact h []
  induction P with
  | nil => cases hg
  | cons g' ps ih =>
    intro a
    rcases List.mem_cons.mp hg with rfl | hg'
    · rw [List.foldl_cons]
      exact collectFold_mono ps _ _ (collectInner_mem _ _ _ hc hne)
    · rw [List.foldl_cons]
      exact ih hg' _

/-- The partition produced by a pass with a usable engine: after the
`citeKeys.forEach` partition and the `processed.filter` walk, the resolved
set is exactly the collected keys present in the scope's lookup, the
unresolved set exactly those absent, and together they cover the keys —
provided every citation id is truthy (so the filter walk adds no id outside
the collected key set). -/
theorem partition_filter_good (bc : List (String × PartialCSLEntry))
    (P : List ProcessedGroup)
    (hids : ∀ g ∈ P, ∀ c ∈ g.citations, c.id ≠ "") :
    (∀ x ∈ (filterAndRecord bc P (partitionKeys bc (collectKeys P)).1
        (partitionKeys bc (collectKeys P)).2).2.1,
      mapHas bc x = true ∧ x ∈ collectKeys P) ∧
    (∀ x ∈ (filterAndRecord bc P (partitionKeys bc (collectKeys P)).1
        (partitionKeys bc (collectKeys P)).2).2.2,
      mapHas bc x = false ∧ x ∈ collectKeys P) ∧
    (∀ x ∈ collectKeys P,
      x ∈ (filterAndRecord bc P (partitionKeys bc (collectKeys P)).1
        (partitionKeys bc (collectKeys P)).2).2.1 ∨
      x ∈ (filterAndRecord bc P (partitionKeys bc (collectKeys P)).1
        (partitionKeys bc (collectKeys P)).2).2.2) := by
  have hpk : partitionKeys bc (collectKeys P) =
      ((collectKeys P).foldl (fun p k =>
        if mapHas bc k then (addSet p.1 k, p.2) else (p.1, addSet p.2 k)) ([], [])) := rfl
  refine ⟨?_, ?_, ?_⟩
  · intro x hx
    unfold filterAndRecord at hx
    rcases farFold_left_sub bc P _ _ hx with h' | ⟨hx', g, hg, c, hc, rfl⟩
    · rw [show ((partitionKeys bc (collectKeys P)).1,
          (partitionKeys bc (collectKeys P)).2) = partitionKeys bc (collectKeys P)
          from rfl, hpk] at h'
      rcases (partitionFold_mem_left bc (collectKeys P) ([], []) x).mp h' with h0 | hgood
      · cases h0
      · exact ⟨hgood.2, hgood.1⟩
    · exact ⟨hx', collectKeys_mem hg hc (hids g hg c hc)⟩
  · intro x hx
    unfold filterAndRecord at hx
    rcases farFold_right_sub bc P _ _ hx with h' | ⟨hx', g, hg, c, hc, rfl⟩
    · rw [show ((partitionKeys bc (collectKeys P)).1,
          (partitionKeys bc (collectKeys P)).2) = partitionKeys bc (collectKeys P)
          from rfl, hpk] at h'
      rcases (partitionFold_mem_right bc (collectKeys P) ([], []) x).mp h' with h0 | hgood
      · cases h0
      · exact ⟨hgood.2, hgood.1⟩
    · exact ⟨hx', collectKeys_mem hg hc (hids g hg c hc)⟩
  · intro x hx
    by_cases hhas : mapHas bc x = true
    · refine Or.inl ?_
      unfold filterAndRecord
      refine farFold_left_mono bc P _ _ ?_
      show x ∈ (partitionKeys bc (collectKeys P)).1
      rw [hpk]
      exact (partitionFold_mem_left bc (collectKeys P) ([], []) x).mpr
        (Or.inr ⟨hx, hhas⟩)
    · refine Or.inr ?_
      unfold filterAndRecord
      refine farFold_right_mono bc P _ _ ?_
      show x ∈ (partitionKeys bc (collectKeys P)).2
      rw [hpk]
      refine (partitionFold_mem_right bc (collectKeys P) ([], []) x).mpr
        (Or.inr ⟨hx, ?_⟩)
      cases h : mapHas bc x
      · rfl
      · exact absurd h hhas

/-- The `FileCache` invariant holds for any entry assembled from the
collected keys and the partition of a pass with truthy citation ids. -/
theorem partition_filter_inv (bc : List (String × PartialCSLEntry))
    (P : List ProcessedGroup)
    (hids : ∀ g ∈ P, ∀ c ∈ g.citations, c.id ≠ "")
    (b : Option Nat) (cits : List RenderedCitation)
    (cbm : List (Option String × Option String)) (sv : Option ScopedSettings)
    (src : Source) :
    FileCacheInv ⟨collectKeys P,
      (filterAndRecord bc P (partitionKeys bc (collectKeys P)).1
        (partitionKeys bc (collectKeys P)).2).2.1,
      (filterAndRecord bc P (partitionKeys bc (collectKeys P)).1
        (partitionKeys bc (collectKeys P)).2).2.2, b, cits, cbm, sv, src⟩ := by
  obtain ⟨hleft, hright, hcover⟩ := partition_filter_good bc P hids
  refine ⟨?_, ?_, ?_, ?_⟩
  · intro k hk; exact hcover k hk
  · intro k hk; exact (hleft k hk).2
  · intro k hk; exact (hright k hk).2
  · intro k hk hk'
    have h1 := (hleft k hk).1
    have h2 := (hright k hk').1
    rw [h1] at h2
    cases h2

/-- Lemma: `finishPass` never touches the scope-construction effect fields: the
chosen source, the scope-load counter, the fetch/conversion/build counters
and the console-error counter pass through unchanged. -/
theorem finishPass_eff (file : String) (s : Option ScopedSettings)
    (processed : List ProcessedGroup) (citeKeys : List String)
    (cachedDoc : Option FileCache) (aSE : Bool) (source : Source)
    (st : BibManagerState) (eff : Effects) :
    (finishPass file s processed citeKeys cachedDoc aSE source st eff).2.1.usedSource =
      eff.usedSource ∧
    (finishPass file s processed citeKeys cachedDoc aSE source st eff).2.1.scopeLoads =
      eff.scopeLoads ∧
    (finishPass file s processed citeKeys cachedDoc aSE source st eff).2.1.styleFetches =
      eff.styleFetches ∧
    (finishPass file s processed citeKeys cachedDoc aSE source st eff).2.1.langFetches =
      eff.langFetches ∧
    (finishPass file s processed citeKeys cachedDoc aSE source st eff).2.1.bibConverts =
      eff.bibConverts ∧
    (finishPass file s processed citeKeys cachedDoc aSE source st eff).2.1.engineBuilds =
      eff.engineBuilds ∧
    (finishPass file s processed citeKeys cachedDoc aSE source st eff).2.1.consoleErrors =
      eff.consoleErrors := by
  unfold finishPass renderAndStore setNull cite makeBibliography
  dsimp only
  repeat' split
  all_goals exact ⟨rfl, rfl, rfl, rfl, rfl, rfl, rfl⟩

/-- Unfolding of `getReferenceList` on the cache-hit path: with a cached
entry whose stored settings agree field-wise with the current scoped
settings, the pass reuses the cached `source` and proceeds directly to
`finishPass`. -/
theorem grl_reuse_eq (env : Env) (st : BibManagerState) (eff : Effects)
    (file : String) (processed : List ProcessedGroup)
    (settings : Option ScopedSettings) (hP : processed ≠ [])
    {e : FileCache} (he : st.fileCache.peekVal file = some e)
    (hse : scopedEq settings e.settings = true) :
    getReferenceList env st eff file processed settings =
      finishPass file settings processed (collectKeys processed) (some e)
        true e.source { st with fileCache := (st.fileCache.get file).2 }
        { eff with usedSource := some e.source } := by
  unfold getReferenceList
  rw [if_neg (fun h => hP (List.length_eq_zero.mp h))]
  dsimp only
  rw [lru_get_fst, he]
  dsimp only [Option.bind]
  rw [hse]
  rfl

/-- Unfolding of `getReferenceList` on the scope-(re)build path: without a
cached entry, or with one whose stored settings differ, the pass builds its
source through `loadScopedEngine` and proceeds to `finishPass`. -/
theorem grl_build_eq (env : Env) (st : BibManagerState) (eff : Effects)
    (file : String) (processed : List ProcessedGroup)
    (settings : Option ScopedSettings) (hP : processed ≠ [])
    (hnr : ((st.fileCache.peekVal file).isSome &&
      scopedEq settings
        ((st.fileCache.peekVal file).bind (fun c => c.settings))) = false) :
    getReferenceList env st eff file processed settings =
      finishPass file settings processed (collectKeys processed)
        (st.fileCache.peekVal file)
        (scopedEq settings ((st.fileCache.peekVal file).bind (fun c => c.settings)))
        (loadScopedEngine env { st with fileCache := (st.fileCache.get file).2 }
          eff settings).2.2
        (loadScopedEngine env { st with fileCache := (st.fileCache.get file).2 }
          eff settings).1
        { (loadScopedEngine env { st with fileCache := (st.fileCache.get file).2 }
            eff settings).2.1 with
          usedSource := some (loadScopedEngine env
            { st with fileCache := (st.fileCache.get file).2 } eff settings).2.2 } := by
  unfold getReferenceList
  rw [if_neg (fun h => hP (List.length_eq_zero.mp h))]
  dsimp only
  rw [lru_get_fst]
  cases he : st.fileCache.peekVal file with
  | none => rfl
  | some e =>
    rw [he] at hnr
    simp only [Option.isSome_some, Bool.true_and] at hnr
    have hnr' : scopedEq settings e.settings = false := hnr
    dsimp only [Option.bind]
    simp only [hnr', Bool.false_eq_true, if_false]

/-- Claim C1: in a resolution pass of `getReferenceList` (one that reaches
resolution, i.e. the parse is non-empty), the cached scope is reused if and
only if a cached entry exists and the document's current scoped settings
agree field-wise with the entry's stored settings on all three fields
(including both settings objects being absent): on agreement the pass's
`source` is the cached entry's and `loadScopedEngine` is not invoked (no
style/locale fetch, bibliography conversion or engine build happens);
otherwise the `source` is freshly built via exactly one `loadScopedEngine`
invocation. -/
theorem getReferenceList_scope_reuse_iff (env : Env) (st : BibManagerState)
    (eff : Effects) (file : String) (processed : List ProcessedGroup)
    (settings : Option ScopedSettings) (hP : processed ≠ []) :
    (((st.fileCache.peekVal file).isSome &&
        scopedEq settings
          ((st.fileCache.peekVal file).bind (fun c => c.settings))) = true →
      (getReferenceList env st eff file processed settings).2.1.usedSource =
        (st.fileCache.peekVal file).map (fun c => c.source) ∧
      (getReferenceList env st eff file processed settings).2.1.scopeLoads =
        eff.scopeLoads ∧
      (getReferenceList env st eff file processed settings).2.1.styleFetches =
        eff.styleFetches ∧
      (getReferenceList env st eff file processed settings).2.1.langFetches =
        eff.langFetches ∧
      (getReferenceList env st eff file processed settings).2.1.bibConverts =
        eff.bibConverts ∧
      (getReferenceList env st eff file processed settings).2.1.engineBuilds =
        eff.engineBuilds) ∧
    (((st.fileCache.peekVal file).isSome &&
        scopedEq settings
          ((st.fileCache.peekVal file).bind (fun c => c.settings))) = false →
      (getReferenceList env st eff file processed settings).2.1.usedSource =
        some (loadScopedEngine env
          { st with fileCache := (st.fileCache.get file).2 } eff settings).2.2 ∧
      (getReferenceList env st eff file processed settings).2.1.scopeLoads =
        eff.scopeLoads + 1) := by
  constructor
  · intro hcond
    rcases Bool.and_eq_true_iff.mp hcond with ⟨hs, hse⟩
    obtain ⟨e, he⟩ := Option.isSome_iff_exists.mp hs
    rw [he] at hse
    have hse' : scopedEq settings e.settings = true := hse
    rw [grl_reuse_eq env st eff file processed settings hP he hse']
    obtain ⟨h1, h2, h3, h4, h5, h6, _⟩ := finishPass_eff file settings processed
      (collectKeys processed) (some e) true e.source
      { st with fileCache := (st.fileCache.get file).2 }
      { eff with usedSource := some e.source }
    rw [he]
    exact ⟨h1, h2, h3, h4, h5, h6⟩
  · intro hcond
    rw [grl_build_eq env st eff file processed settings hP hcond]
    obtain ⟨lc, sc, a, b, c, d, e, srcv, hsh⟩ :=
      loadScopedEngine_shape env { st with fileCache := (st.fileCache.get file).2 }
        eff settings
    obtain ⟨h1, h2, _, _, _, _, _⟩ := finishPass_eff file settings processed
      (collectKeys processed) (st.fileCache.peekVal file)
      (scopedEq settings ((st.fileCache.peekVal file).bind (fun c => c.settings)))
      (loadScopedEngine env { st with fileCache := (st.fileCache.get file).2 }
        eff settings).2.2
      (loadScopedEngine env { st with fileCache := (st.fileCache.get file).2 }
        eff settings).1
      { (loadScopedEngine env { st with fileCache := (st.fileCache.get file).2 }
          eff settings).2.1 with
        usedSource := some (loadScopedEngine env
          { st with fileCache := (st.fileCache.get file).2 } eff settings).2.2 }
    refine ⟨by rw [h1], ?_⟩
    rw [h2, hsh]

/-- Witness for C1 at a concrete reuse input: with entry `e0` cached for
`f` and unchanged (absent) scoped settings, the pass uses the cached
source and performs no scope load. -/
theorem getReferenceList_scope_reuse_iff_witness :
    (getReferenceList cenv cstC1 eff0 "f" [g1] none).2.1.usedSource =
      (cstC1.fileCache.peekVal "f").map (fun c => c.source) ∧
    (getReferenceList cenv cstC1 eff0 "f" [g1] none).2.1.scopeLoads = 0 := by
  have h := (getReferenceList_scope_reuse_iff cenv cstC1 eff0 "f" [g1] none
    (by decide)).1 (by decide)
  exact ⟨h.1, h.2.1⟩

/-- The `FileCache` invariant holds for any entry whose keys are the
collected keys and whose resolved/unresolved sets are the pass partition,
provided every citation id is truthy. -/
theorem partition_fields_inv (bc : List (String × PartialCSLEntry))
    (P : List ProcessedGroup)
    (hids : ∀ g ∈ P, ∀ c ∈ g.citations, c.id ≠ "") (e : FileCache)
    (hkeys : e.keys = collectKeys P)
    (hrk : e.resolvedKeys = (filterAndRecord bc P
      (partitionKeys bc (collectKeys P)).1 (partitionKeys bc (collectKeys P)).2).2.1)
    (huk : e.unresolvedKeys = (filterAndRecord bc P
      (partitionKeys bc (collectKeys P)).1 (partitionKeys bc (collectKeys P)).2).2.2) :
    FileCacheInv e := by
  obtain ⟨hleft, hright, hcover⟩ := partition_filter_good bc P hids
  refine ⟨?_, ?_, ?_, ?_⟩ <;> simp only [hkeys, hrk, huk]
  · exact hcover
  · intro k hk; exact (hleft k hk).2
  · intro k hk; exact (hright k hk).2
  · intro k hk hk'
    have h1 := (hleft k hk).1
    have h2 := (hright k hk').1
    rw [h1] at h2
    cases h2

/-- Lemma: `filterAndRecord` keeps exactly the groups whose every citation id is
in the lookup. -/
theorem filterAndRecord_fst (bc : List (String × PartialCSLEntry))
    (P : List ProcessedGroup) (rk uk : List String) :
    (filterAndRecord bc P rk uk).1 =
      P.filter (fun g => g.citations.all (fun c => mapHas bc c.id)) := by
  unfold filterAndRecord
  rw [farFold_fst]
  simp

/-- Every entry `renderAndStore` dispatches is for the given file, carries
the given keys, partition and source. -/
theorem renderAndStore_dispatch (file : String) (s : Option ScopedSettings)
    (citeKeys rk uk : List String) (citations : List RenderedCitation)
    (source : Source) (eng : Engine) (st : BibManagerState) (eff : Effects)
    (n : Nat) (hn : eff.dispatches.length = n) :
    ∀ fe ∈ ((renderAndStore file s citeKeys rk uk citations source eng
        st eff).2.1.dispatches.drop n),
      fe.1 = file ∧ fe.2.keys = citeKeys ∧ fe.2.source = source ∧
      fe.2.resolvedKeys = rk ∧ fe.2.unresolvedKeys = uk := by
  subst hn
  unfold renderAndStore setNull makeBibliography
  dsimp only
  split
  · intro fe hfe
    rw [show (eff.dispatches ++ [(file,
        (⟨citeKeys, rk, uk, none, [], [], none, source⟩ : FileCache))]).drop
        eff.dispatches.length = _ from List.drop_left _ _] at hfe
    rcases List.mem_singleton.mp hfe with rfl
    exact ⟨rfl, rfl, rfl, rfl, rfl⟩
  · next metadata entries heq =>
    split
    · intro fe hfe
      rw [show (eff.dispatches ++ [(file,
          (⟨citeKeys, rk, uk, some eff.allocCtr, citations,
            buildCiteBibMap metadata.entry_ids entries, s, source⟩ : FileCache))]).drop
          eff.dispatches.length = _ from List.drop_left _ _] at hfe
      rcases List.mem_singleton.mp hfe with rfl
      exact ⟨rfl, rfl, rfl, rfl, rfl⟩
    · intro fe hfe
      rw [show (eff.dispatches ++ [(file,
          (⟨citeKeys, rk, uk, none, citations,
            buildCiteBibMap metadata.entry_ids entries, s, source⟩ : FileCache))]).drop
          eff.dispatches.length = _ from List.drop_left _ _] at hfe
      rcases List.mem_singleton.mp hfe with rfl
      exact ⟨rfl, rfl, rfl, rfl, rfl⟩

/-- Every entry `finishPass` dispatches is for the given file, carries the
collected keys and the pass source; its resolved/unresolved sets are empty
when the source has no engine, and are the pass partition otherwise. -/
theorem finishPass_dispatch_entries (file : String) (s : Option ScopedSettings)
    (P : List ProcessedGroup) (cachedDoc : Option FileCache) (aSE : Bool)
    (source : Source) (st : BibManagerState) (eff : Effects) :
    ∀ fe ∈ ((finishPass file s P (collectKeys P) cachedDoc aSE source
        st eff).2.1.dispatches.drop eff.dispatches.length),
      fe.1 = file ∧ fe.2.keys = collectKeys P ∧ fe.2.source = source ∧
      (source.engine = none →
        fe.2.resolvedKeys = [] ∧ fe.2.unresolvedKeys = []) ∧
      (source.engine.isSome = true →
        fe.2.resolvedKeys = (filterAndRecord source.bibCache P
          (partitionKeys source.bibCache (collectKeys P)).1
          (partitionKeys source.bibCache (collectKeys P)).2).2.1 ∧
        fe.2.unresolvedKeys = (filterAndRecord source.bibCache P
          (partitionKeys source.bibCache (collectKeys P)).1
          (partitionKeys source.bibCache (collectKeys P)).2).2.2) := by
  unfold finishPass
  cases hsrc : source.engine with
  | none =>
    unfold setNull
    dsimp only
    intro fe hfe
    rw [show (eff.dispatches ++ [(file,
        (⟨collectKeys P, [], [], none, [], [], none, source⟩ : FileCache))]).drop
        eff.dispatches.length = _ from List.drop_left _ _] at hfe
    rcases List.mem_singleton.mp hfe with rfl
    exact ⟨rfl, rfl, rfl, fun _ => ⟨rfl, rfl⟩, fun h => by simp at h⟩
  | some eng =>
    dsimp only
    cases cachedDoc with
    | some cd =>
      dsimp only
      intro fe hfe
      by_cases hsup : (cd.citations == (cite eff eng
          (filterAndRecord source.bibCache P
            (partitionKeys source.bibCache (collectKeys P)).1
            (partitionKeys source.bibCache (collectKeys P)).2).1).2 && aSE) = true
      · rw [if_pos hsup] at hfe
        have hfe' : fe ∈ List.drop eff.dispatches.length eff.dispatches := hfe
        rw [List.drop_length] at hfe'
        cases hfe'
      · rw [if_neg hsup] at hfe
        obtain ⟨h1, h2, h3, h4, h5⟩ := renderAndStore_dispatch file s
          (collectKeys P) _ _ _ source eng st
          (cite eff eng (filterAndRecord source.bibCache P
            (partitionKeys source.bibCache (collectKeys P)).1
            (partitionKeys source.bibCache (collectKeys P)).2).1).1
          eff.dispatches.length rfl fe hfe
        exact ⟨h1, h2, h3, fun h => by simp [hsrc] at h,
          fun _ => ⟨h4, h5⟩⟩
    | none =>
      dsimp only
      intro fe hfe
      obtain ⟨h1, h2, h3, h4, h5⟩ := renderAndStore_dispatch file s
        (collectKeys P) _ _ _ source eng st
        (cite eff eng (filterAndRecord source.bibCache P
          (partitionKeys source.bibCache (collectKeys P)).1
          (partitionKeys source.bibCache (collectKeys P)).2).1).1
        eff.dispatches.length rfl fe hfe
      exact ⟨h1, h2, h3, fun h => by simp [hsrc] at h,
        fun _ => ⟨h4, h5⟩⟩

/-- Claim C2 as stated is false: on the no-engine path (here: no global
engine and no scoped settings), the stored entry has `keys = ["a"]` but
both `resolvedKeys` and `unresolvedKeys` empty, so the union of the two
does not equal `keys`. -/
theorem getReferenceList_partition_cex :
    ((getReferenceList cenv cstNoEng eff0 "f" [g1] none).1.fileCache.peekVal
      "f").map (fun e => e.keys) = some ["a"] ∧
    ((getReferenceList cenv cstNoEng eff0 "f" [g1] none).1.fileCache.peekVal
      "f").map (fun e => e.resolvedKeys) = some [] ∧
    ((getReferenceList cenv cstNoEng eff0 "f" [g1] none).1.fileCache.peekVal
      "f").map (fun e => e.unresolvedKeys) = some [] ∧
    ((getReferenceList cenv cstNoEng eff0 "f" [g1] none).1.fileCache.peekVal
      "f").map (fun e => decide (FileCacheInv e)) = some false := by
  refine ⟨rfl, rfl, rfl, ?_⟩
  decide

/-- Claim C2 (amended): for every `FileCache` entry stored in the
resolution cache by a `getReferenceList` pass whose citation ids are all
truthy, if the entry's scope has an engine then
`resolvedKeys ∪ unresolvedKeys = keys` with the two sets disjoint; entries
stored by the engine-less short-circuit instead have both `resolvedKeys`
and `unresolvedKeys` empty. -/
theorem getReferenceList_partition_amended (env : Env) (st : BibManagerState)
    (eff : Effects) (file : String) (P : List ProcessedGroup)
    (s : Option ScopedSettings)
    (hids : ∀ g ∈ P, ∀ c ∈ g.citations, c.id ≠ "") :
    ∀ fe ∈ ((getReferenceList env st eff file P s).2.1.dispatches.drop
      eff.dispatches.length),
      (fe.2.source.engine.isSome = true → FileCacheInv fe.2) ∧
      (fe.2.source.engine = none →
        fe.2.resolvedKeys = [] ∧ fe.2.unresolvedKeys = []) := by
  by_cases hPe : P = []
  · subst hPe
    intro fe hfe
    have hfe' : fe ∈ List.drop eff.dispatches.length eff.dispatches := hfe
    rw [List.drop_length] at hfe'
    cases hfe'
  · by_cases hb : ((st.fileCache.peekVal file).isSome &&
        scopedEq s ((st.fileCache.peekVal file).bind (fun c => c.settings))) = true
    · rcases Bool.and_eq_true_iff.mp hb with ⟨hs, hse⟩
      obtain ⟨e, he⟩ := Option.isSome_iff_exists.mp hs
      rw [he] at hse
      have hse' : scopedEq s e.settings = true := hse
      rw [grl_reuse_eq env st eff file P s hPe he hse']
      intro fe hfe
      obtain ⟨_, hkeys, hsrcfe, hnone, hsome⟩ :=
        finishPass_dispatch_entries file s P (some e) true e.source
          { st with fileCache := (st.fileCache.get file).2 }
          { eff with usedSource := some e.source } fe hfe
      constructor
      · intro hiss
        rw [hsrcfe] at hiss
        obtain ⟨hrk, huk⟩ := hsome hiss
        exact partition_fields_inv e.source.bibCache P hids fe.2 hkeys hrk huk
      · intro hn
        rw [hsrcfe] at hn
        exact hnone hn
    · have hb' : ((st.fileCache.peekVal file).isSome &&
          scopedEq s ((st.fileCache.peekVal file).bind (fun c => c.settings))) =
          false := by
        cases h : ((st.fileCache.peekVal file).isSome &&
          scopedEq s ((st.fileCache.peekVal file).bind (fun c => c.settings)))
        · rfl
        · exact absurd h hb
      rw [grl_build_eq env st eff file P s hPe hb']
      intro fe hfe
      obtain ⟨lc, sc, a, b, c, d, e, srcv, hsh⟩ :=
        loadScopedEngine_shape env
          { st with fileCache := (st.fileCache.get file).2 } eff s
      rw [hsh] at hfe
      obtain ⟨_, hkeys, hsrcfe, hnone, hsome⟩ :=
        finishPass_dispatch_entries file s P (st.fileCache.peekVal file)
          (scopedEq s ((st.fileCache.peekVal file).bind (fun c => c.settings)))
          srcv
          { st with
            fileCache := (st.fileCache.get file).2
            langCache := lc
            styleCache := sc }
          { eff with
            styleFetches := a
            langFetches := b
            bibConverts := c
            engineBuilds := d
            consoleErrors := e
            scopeLoads := eff.scopeLoads + 1
            usedSource := some srcv }
          fe hfe
      constructor
      · intro hiss
        rw [hsrcfe] at hiss
        obtain ⟨hrk, huk⟩ := hsome hiss
        exact partition_fields_inv srcv.bibCache P hids fe.2 hkeys hrk huk
      · intro hn
        rw [hsrcfe] at hn
        exact hnone hn

/-- Witness for the amended C2 at a concrete input: the entry stored by an
engine-backed pass satisfies the partition invariant. -/
theorem getReferenceList_partition_amended_witness : FileCacheInv eW := by
  have h := getReferenceList_partition_amended cenv cst eff0 "f" [g1] none
    (by intro g hg c hc
        rcases List.mem_singleton.mp hg with rfl
        rcases List.mem_singleton.mp hc with rfl
        decide) ("f", eW)
    (by rw [show (getReferenceList cenv cst eff0 "f" [g1] none).2.1.dispatches.drop
          eff0.dispatches.length = [("f", eW)] from rfl]
        exact List.mem_singleton_self _)
  exact h.1 rfl

/-- Claim C3 as stated is false: calling `getReferenceList` twice on the
same document with unchanged text and settings does return the identical
bibliography object (`some 0` both times, no new DOM allocation and no
second `makeBibliography`), but the second call still invokes the style
engine's citation rendering: the `cite` invocation count rises from 1
to 2. -/
theorem getReferenceList_second_call_cex :
    (getReferenceList cenv cst eff0 "f" [g1] none).2.1.citeCalls = 1 ∧
    (getReferenceList cenv (getReferenceList cenv cst eff0 "f" [g1] none).1
      (getReferenceList cenv cst eff0 "f" [g1] none).2.1
      "f" [g1] none).2.1.citeCalls = 2 ∧
    (getReferenceList cenv (getReferenceList cenv cst eff0 "f" [g1] none).1
      (getReferenceList cenv cst eff0 "f" [g1] none).2.1
      "f" [g1] none).2.1.bibCalls = 1 ∧
    (getReferenceList cenv (getReferenceList cenv cst eff0 "f" [g1] none).1
      (getReferenceList cenv cst eff0 "f" [g1] none).2.1
      "f" [g1] none).2.2 = some 0 ∧
    (getReferenceList cenv cst eff0 "f" [g1] none).2.2 = some 0 :=
  ⟨rfl, rfl, rfl, rfl, rfl⟩

/-- Claim C3 (amended): a `getReferenceList` pass over a document with a
cached entry whose stored settings match, whose scope has an engine and
whose cached citations deep-equal the freshly rendered ones, returns the
identical cached bibliography object, performs no `makeBibliography` call,
no DOM allocation, no store and no dispatch — but it still invokes the
engine's citation rendering once. -/
theorem getReferenceList_second_call_amended (env : Env) (st : BibManagerState)
    (eff : Effects) (file : String) (P : List ProcessedGroup)
    (s : Option ScopedSettings) (e : FileCache) (eng : Engine) (hP : P ≠ [])
    (he : st.fileCache.peekVal file = some e)
    (hse : scopedEq s e.settings = true)
    (heng : e.source.engine = some eng)
    (hcit : (e.citations == eng.renderCitations (P.filter (fun g =>
      g.citations.all (fun c => mapHas e.source.bibCache c.id)))) = true) :
    (getReferenceList env st eff file P s).2.2 = e.bib ∧
    (getReferenceList env st eff file P s).2.1.bibCalls = eff.bibCalls ∧
    (getReferenceList env st eff file P s).2.1.citeCalls = eff.citeCalls + 1 ∧
    (getReferenceList env st eff file P s).2.1.allocCtr = eff.allocCtr ∧
    (getReferenceList env st eff file P s).2.1.dispatches = eff.dispatches ∧
    (getReferenceList env st eff file P s).1.fileCache =
      (st.fileCache.get file).2 := by
  rw [grl_reuse_eq env st eff file P s hP he hse]
  unfold finishPass
  rw [heng]
  dsimp only
  rw [filterAndRecord_fst]
  dsimp only [cite]
  rw [Bool.and_true, hcit]
  rw [if_pos rfl]
  exact ⟨rfl, rfl, rfl, rfl, rfl, rfl⟩

/-- Witness for the amended C3 at a concrete input: with entry `e0` cached
and settings unchanged, the pass returns the cached `bib` object `some 7`,
makes no `makeBibliography` call and exactly one citation render. -/
theorem getReferenceList_second_call_amended_witness :
    (getReferenceList cenv cstC1 eff0 "f" [g1] none).2.2 = some 7 ∧
    (getReferenceList cenv cstC1 eff0 "f" [g1] none).2.1.bibCalls = 0 ∧
    (getReferenceList cenv cstC1 eff0 "f" [g1] none).2.1.citeCalls = 1 := by
  have h := getReferenceList_second_call_amended cenv cstC1 eff0 "f" [g1] none
    e0 eng0 (by decide) rfl (by decide) rfl (by decide)
  exact ⟨h.1, h.2.1, h.2.2.1⟩

/-- With an engine-less source, `finishPass` is exactly the `setNull`
store-and-dispatch. -/
theorem finishPass_none_eq (file : String) (s : Option ScopedSettings)
    (P : List ProcessedGroup) (ck : List String) (cachedDoc : Option FileCache)
    (aSE : Bool) (source : Source) (st : BibManagerState) (eff : Effects)
    (heng : source.engine = none) :
    finishPass file s P ck cachedDoc aSE source st eff =
      ({ st with fileCache := (st.fileCache.set file ⟨ck, [], [], none, [], [], none, source⟩) },
       { eff with dispatches := (eff.dispatches ++ [(file, ⟨ck, [], [], none, [], [], none, source⟩)]) },
       none) := by
  unfold finishPass setNull
  rw [heng]

/-- Claim C5 as stated is false: on the no-engine pass for `[g1]` the
stored result has `unresolvedKeys = []` — the cited key `a` is *not*
placed in `unresolvedKeys` (it remains only in `keys`). -/
theorem getReferenceList_no_engine_cex :
    ((getReferenceList cenv cstNoEng eff0 "f" [g1] none).2.1.usedSource).map
      (fun s => s.engine.isSome) = some false ∧
    ((getReferenceList cenv cstNoEng eff0 "f" [g1] none).1.fileCache.peekVal
      "f").map (fun e => e.unresolvedKeys) = some [] ∧
    ((getReferenceList cenv cstNoEng eff0 "f" [g1] none).1.fileCache.peekVal
      "f").map (fun e => e.keys) = some ["a"] :=
  ⟨rfl, rfl, rfl⟩

/-- Claim C5 (amended): when the scope chosen for a pass has no usable
engine, the pass short-circuits and stores and dispatches a result with
*both* `resolvedKeys` and `unresolvedKeys` empty (the cited keys remain
only in `keys`), no citations, no bibliography and `settings` cleared to
`null`, and returns `null`. -/
theorem getReferenceList_no_engine_amended (env : Env) (st : BibManagerState)
    (eff : Effects) (file : String) (P : List ProcessedGroup)
    (s : Option ScopedSettings) (src : Source) (hP : P ≠ [])
    (hsrc : (getReferenceList env st eff file P s).2.1.usedSource = some src)
    (heng : src.engine = none) :
    (getReferenceList env st eff file P s).2.2 = none ∧
    (getReferenceList env st eff file P s).2.1.dispatches.drop
      eff.dispatches.length =
      [(file, ⟨collectKeys P, [], [], none, [], [], none, src⟩)] ∧
    (getReferenceList env st eff file P s).1.fileCache =
      (((st.fileCache.get file).2).set file ⟨collectKeys P, [], [], none, [], [], none, src⟩) := by
  by_cases hb : ((st.fileCache.peekVal file).isSome &&
      scopedEq s ((st.fileCache.peekVal file).bind (fun c => c.settings))) = true
  · rcases Bool.and_eq_true_iff.mp hb with ⟨hs, hse⟩
    obtain ⟨e, he⟩ := Option.isSome_iff_exists.mp hs
    rw [he] at hse
    have hse' : scopedEq s e.settings = true := hse
    rw [grl_reuse_eq env st eff file P s hP he hse'] at hsrc ⊢
    have hus := (finishPass_eff file s P (collectKeys P) (some e) true e.source
      { st with fileCache := (st.fileCache.get file).2 }
      { eff with usedSource := some e.source }).1
    rw [hus] at hsrc
    have hes : e.source = src := Option.some.inj hsrc
    rw [finishPass_none_eq file s P (collectKeys P) (some e) true e.source
      { st with fileCache := (st.fileCache.get file).2 }
      { eff with usedSource := some e.source } (by rw [hes]; exact heng)]
    rw [hes]
    refine ⟨rfl, ?_, rfl⟩
    exact List.drop_left _ _
  · have hb' : ((st.fileCache.peekVal file).isSome &&
        scopedEq s ((st.fileCache.peekVal file).bind (fun c => c.settings))) =
        false := by
      cases h : ((st.fileCache.peekVal file).isSome &&
        scopedEq s ((st.fileCache.peekVal file).bind (fun c => c.settings)))
      · rfl
      · exact absurd h hb
    rw [grl_build_eq env st eff file P s hP hb'] at hsrc ⊢
    obtain ⟨lc, sc, a, b, c, d, e, srcv, hsh⟩ :=
      loadScopedEngine_shape env
        { st with fileCache := (st.fileCache.get file).2 } eff s
    have hsh' : loadScopedEngine env
        { st with fileCache := (st.fileCache.get file).2 } eff s =
        ({ st with
            fileCache := (st.fileCache.get file).2
            langCache := lc
            styleCache := sc },
         { eff with
            styleFetches := a
            langFetches := b
            bibConverts := c
            engineBuilds := d
            consoleErrors := e
            scopeLoads := eff.scopeLoads + 1 }, srcv) := by rw [hsh]
    rw [hsh'] at hsrc ⊢
    have hus := (finishPass_eff file s P (collectKeys P)
      (st.fileCache.peekVal file)
      (scopedEq s ((st.fileCache.peekVal file).bind (fun c => c.settings)))
      srcv
      { st with
        fileCache := (st.fileCache.get file).2
        langCache := lc
        styleCache := sc }
      { eff with
        styleFetches := a
        langFetches := b
        bibConverts := c
        engineBuilds := d
        consoleErrors := e
        scopeLoads := eff.scopeLoads + 1
        usedSource := some srcv }).1
    rw [hus] at hsrc
    have hes : srcv = src := Option.some.inj hsrc
    rw [finishPass_none_eq file s P (collectKeys P)
      (st.fileCache.peekVal file)
      (scopedEq s ((st.fileCache.peekVal file).bind (fun c => c.settings)))
      srcv
      { st with
        fileCache := (st.fileCache.get file).2
        langCache := lc
        styleCache := sc }
      { eff with
        styleFetches := a
        langFetches := b
        bibConverts := c
        engineBuilds := d
        consoleErrors := e
        scopeLoads := eff.scopeLoads + 1
        usedSource := some srcv }
      (by rw [hes]; exact heng)]
    rw [hes]
    refine ⟨rfl, ?_, rfl⟩
    exact List.drop_left _ _

/-- Witness for the amended C5 at a concrete input: the no-engine pass on
`cstNoEng` returns `null` and stores the empty-partition entry. -/
theorem getReferenceList_no_engine_amended_witness :
    (getReferenceList cenv cstNoEng eff0 "f" [g1] none).2.2 = none ∧
    (getReferenceList cenv cstNoEng eff0 "f" [g1] none).2.1.dispatches.drop
      eff0.dispatches.length =
      [("f", ⟨collectKeys [g1], [], [], none, [], [], none,
        globalSource cstNoEng⟩)] := by
  have h := getReferenceList_no_engine_amended cenv cstNoEng eff0 "f" [g1] none
    (globalSource cstNoEng) (by decide) rfl rfl
  exact ⟨h.1, h.2.1⟩

/-- A failing style load inside `loadScopedEngine` logs one console error
and returns the manager itself as the scope (the global bibliography, fuse
index and engine), leaving the caches untouched. -/
theorem loadScopedEngine_style_fail (env : Env) (st : BibManagerState)
    (eff : Effects) (so : ScopedSettings) (sty : String)
    (hsty : so.style = some sty) (hne : (sty == "") = false)
    (hnc : mapHas st.styleCache sty = false)
    (hfail : env.styleFetch (some sty)
      (if testHttp sty then none else some sty) = none) :
    loadScopedEngine env st eff (some so) =
      (st, { eff with
              scopeLoads := eff.scopeLoads + 1
              styleFetches := eff.styleFetches + 1
              consoleErrors := eff.consoleErrors + 1 },
       globalSource st) := by
  have hLS : ∀ (effx : Effects),
      loadStyles env st effx
        [if testHttp sty then (⟨some sty, none⟩ : StyleRef)
         else ⟨some sty, some sty⟩] [] =
        (st, { effx with styleFetches := effx.styleFetches + 1 }, none) := by
    intro effx
    by_cases hurl : testHttp sty = true
    · rw [if_pos hurl] at hfail
      rw [if_pos hurl]
      simp [loadStyles, getCSLStyle, hnc, hfail, Option.orElse]
    · rw [if_neg hurl] at hfail
      rw [if_neg hurl]
      simp [loadStyles, getCSLStyle, hnc, hfail, Option.orElse]
  unfold loadScopedEngine
  dsimp only
  rw [hsty]
  dsimp only
  rw [hne]
  simp only [Bool.false_eq_true, if_false]
  rw [hLS { eff with scopeLoads := eff.scopeLoads + 1 }]

/-- Claim C4 as stated is false: with a style override whose fetch throws
but a global engine available, the pass logs the failure and then proceeds
with the *global* scope — the cited key resolves against the global
bibliography, citations are rendered and a bibliography is produced, rather
than yielding an all-unresolved empty result. -/
theorem loadScopedEngine_failure_cex :
    (getReferenceList cenvFail cst eff0 "f" [g1] sStyle).2.1.consoleErrors = 1 ∧
    ((getReferenceList cenvFail cst eff0 "f" [g1] sStyle).1.fileCache.peekVal
      "f").map (fun e => e.resolvedKeys) = some ["a"] ∧
    ((getReferenceList cenvFail cst eff0 "f" [g1] sStyle).1.fileCache.peekVal
      "f").map (fun e => e.unresolvedKeys) = some [] ∧
    ((getReferenceList cenvFail cst eff0 "f" [g1] sStyle).1.fileCache.peekVal
      "f").map (fun e => e.bib) = some (some 0) ∧
    ((getReferenceList cenvFail cst eff0 "f" [g1] sStyle).1.fileCache.peekVal
      "f").map (fun e => e.citations.length) = some 1 ∧
    (getReferenceList cenvFail cst eff0 "f" [g1] sStyle).2.2 = some 0 := by
  decide

/-- Lemma: the locale walk of `loadLangs` succeeds exactly when the cache-only
recursion `langsLoadRes` does (the effect log does not influence which
fetches happen or whether one throws). -/
theorem loadLangs_res_isSome (env : Env) (l : List String) :
    ∀ (st : BibManagerState) (eff : Effects),
    (loadLangs env st eff l).2.2 = (langsLoadRes env st.langCache l).isSome := by
  induction l with
  | nil => intro st eff; rfl
  | cons lang rest ih =>
    intro st eff
    by_cases h1 : (lang == "") = true
    · simp only [loadLangs, langsLoadRes, h1, if_true]
      exact ih st eff
    · have h1' : (lang == "") = false := Bool.eq_false_iff.mpr h1
      by_cases h2 : mapHas st.langCache lang = true
      · simp only [loadLangs, langsLoadRes, h1', Bool.false_eq_true, if_false,
          h2, if_true]
        exact ih st eff
      · have h2' : mapHas st.langCache lang = false := Bool.eq_false_iff.mpr h2
        simp only [loadLangs, langsLoadRes, h1', h2', Bool.false_eq_true,
          if_false]
        unfold getCSLLocale
        cases env.langFetch lang with
        | none => rfl
        | some doc =>
          exact ih { st with langCache := mapSet st.langCache lang doc }
            { eff with langFetches := eff.langFetches + 1 }

/-- Lemma: a single cached style descriptor makes `loadStyles` skip the fetch
and return no documents. -/
theorem loadStyles_single_cached (env : Env) (st : BibManagerState)
    (eff : Effects) (sty : String) (hc : mapHas st.styleCache sty = true) :
    loadStyles env st eff
      [if testHttp sty then (⟨some sty, none⟩ : StyleRef)
       else ⟨some sty, some sty⟩] [] = (st, eff, some []) := by
  by_cases hurl : testHttp sty = true
  · rw [if_pos hurl]
    simp [loadStyles, hc, Option.orElse]
  · rw [if_neg hurl]
    simp [loadStyles, hc, Option.orElse]

/-- Lemma: a single uncached style descriptor whose fetch succeeds makes
`loadStyles` cache and return exactly that document, with one fetch. -/
theorem loadStyles_single_fetch (env : Env) (st : BibManagerState)
    (eff : Effects) (sty doc : String) (hnc : mapHas st.styleCache sty = false)
    (hf : env.styleFetch (some sty)
      (if testHttp sty then none else some sty) = some doc) :
    loadStyles env st eff
      [if testHttp sty then (⟨some sty, none⟩ : StyleRef)
       else ⟨some sty, some sty⟩] [] =
      ({ st with styleCache := mapSet st.styleCache sty doc },
       { eff with styleFetches := eff.styleFetches + 1 }, some [doc]) := by
  by_cases hurl : testHttp sty = true
  · rw [if_pos hurl]
    rw [if_pos hurl] at hf
    simp [loadStyles, getCSLStyle, hnc, hf, Option.orElse]
  · rw [if_neg hurl]
    rw [if_neg hurl] at hf
    simp [loadStyles, getCSLStyle, hnc, hf, Option.orElse]

/-- Lemma: a failing locale walk makes the language step log one console error
and return the manager itself (the global scope of its input state). -/
theorem loadScopedLangStep_lang_fail (env : Env) (s : ScopedSettings)
    (lang0 : String) (bibCache0 : List (String × PartialCSLEntry))
    (fuse0 : Option (List PartialCSLEntry)) (st1 : BibManagerState)
    (eff1 : Effects) (style : String) (langs : List String) (l : String)
    (hl : s.lang = some l) (hlne : (l == "") = false)
    (hfl : langsLoadRes env st1.langCache langs = none) :
    ∃ lc m, loadScopedLangStep env s lang0 bibCache0 fuse0 st1 eff1 style langs =
      ({ st1 with langCache := lc },
       { eff1 with langFetches := m,
                   consoleErrors := eff1.consoleErrors + 1 },
       globalSource st1) := by
  unfold loadScopedLangStep
  rw [hl]
  dsimp only
  simp only [hlne, Bool.false_eq_true, if_false]
  obtain ⟨lc, m, bres, hLL⟩ := loadLangs_shape env langs st1 eff1
  have hb : bres = false := by
    have h := loadLangs_res_isSome env langs st1 eff1
    rw [hLL, hfl] at h
    exact h
  subst hb
  rw [hLL]
  exact ⟨lc, m, rfl⟩

/-- Lemma: a failing bibliography conversion after a successful (or skipped)
locale step makes the language/bibliography steps log one console error and
return the manager itself. -/
theorem loadScopedLangStep_bib_fail (env : Env) (s : ScopedSettings)
    (lang0 : String) (bibCache0 : List (String × PartialCSLEntry))
    (fuse0 : Option (List PartialCSLEntry)) (st1 : BibManagerState)
    (eff1 : Effects) (style : String) (langs : List String) (b : String)
    (hb : s.bibliography = some b) (hbne : (b == "") = false)
    (hconv : env.bibConvert b = none)
    (hok : langStepOk env st1.langCache langs s.lang) :
    ∃ lc m c, loadScopedLangStep env s lang0 bibCache0 fuse0 st1 eff1 style langs =
      ({ st1 with langCache := lc },
       { eff1 with langFetches := m, bibConverts := c,
                   consoleErrors := eff1.consoleErrors + 1 },
       globalSource st1) := by
  have hbs : ∀ (st2 : BibManagerState) (eff2 : Effects) (lang : String),
      loadScopedBibStep env s bibCache0 fuse0 st2 eff2 style lang =
        (st2, { eff2 with bibConverts := eff2.bibConverts + 1,
                          consoleErrors := eff2.consoleErrors + 1 },
         globalSource st2) := by
    intro st2 eff2 lang
    unfold loadScopedBibStep
    rw [hb]
    dsimp only
    simp only [hbne, Bool.false_eq_true, if_false]
    rw [hconv]
  unfold loadScopedLangStep
  cases hsl : s.lang with
  | none =>
    dsimp only
    rw [hbs st1 eff1 lang0]
    exact ⟨st1.langCache, eff1.langFetches, eff1.bibConverts + 1, rfl⟩
  | some l =>
    dsimp only
    rw [hsl] at hok
    by_cases hle : (l == "") = true
    · simp only [hle, if_true]
      rw [hbs st1 eff1 lang0]
      exact ⟨st1.langCache, eff1.langFetches, eff1.bibConverts + 1, rfl⟩
    · have hle' : (l == "") = false := Bool.eq_false_iff.mpr hle
      simp only [hle', Bool.false_eq_true, if_false]
      have hsucc : (langsLoadRes env st1.langCache langs).isSome = true := by
        rcases hok with h | h
        · exact absurd h hle
        · exact h
      obtain ⟨lc, m, bres, hLL⟩ := loadLangs_shape env langs st1 eff1
      have hbb : bres = true := by
        have h := loadLangs_res_isSome env langs st1 eff1
        rw [hLL, hsucc] at h
        exact h
      subst hbb
      rw [hLL]
      dsimp only
      rw [hbs { st1 with langCache := lc } { eff1 with langFetches := m } l]
      exact ⟨lc, m, eff1.bibConverts + 1, rfl⟩

/-- Lemma: when the style step of `loadScopedEngine` does not throw (condition
expressed through `styleStepLangs`), the call reduces to the language step
over the computed locale list, some style-cache update and fetch count. -/
theorem loadScopedEngine_styleOk (env : Env) (st : BibManagerState)
    (eff : Effects) (so : ScopedSettings) (langs : List String)
    (hstep : styleStepLangs env st.styleCache so = some langs) :
    ∃ sc a style, loadScopedEngine env st eff (some so) =
      loadScopedLangStep env so (env.cslLang.getD "en-US") st.bibCache st.fuse
        { st with styleCache := sc }
        { eff with styleFetches := a, scopeLoads := eff.scopeLoads + 1 }
        style langs := by
  unfold loadScopedEngine
  dsimp only
  unfold styleStepLangs at hstep
  cases hso : so.style with
  | none =>
    rw [hso] at hstep
    have hlangs : langs = [so.lang.getD ""] := (Option.some.inj hstep).symm
    subst hlangs
    exact ⟨st.styleCache, eff.styleFetches,
      env.cslStyleURL.getD defaultStyleURL, rfl⟩
  | some sty =>
    rw [hso] at hstep
    by_cases hse : (sty == "") = true
    · simp only [hse, if_true] at hstep ⊢
      have hlangs : langs = [so.lang.getD ""] := (Option.some.inj hstep).symm
      subst hlangs
      exact ⟨st.styleCache, eff.styleFetches,
        env.cslStyleURL.getD defaultStyleURL, rfl⟩
    · have hse' : (sty == "") = false := Bool.eq_false_iff.mpr hse
      simp only [hse', Bool.false_eq_true, if_false] at hstep ⊢
      by_cases hc : mapHas st.styleCache sty = true
      · simp only [hc, if_true] at hstep
        have hlangs : langs = [so.lang.getD ""] := (Option.some.inj hstep).symm
        subst hlangs
        rw [loadStyles_single_cached env st
          { eff with scopeLoads := eff.scopeLoads + 1 } sty hc]
        exact ⟨st.styleCache, eff.styleFetches, sty, rfl⟩
      · have hc' : mapHas st.styleCache sty = false := Bool.eq_false_iff.mpr hc
        simp only [hc', Bool.false_eq_true, if_false] at hstep
        cases hf : env.styleFetch (some sty)
            (if testHttp sty then none else some sty) with
        | none =>
          rw [hf] at hstep
          exact Option.noConfusion hstep
        | some doc =>
          rw [hf] at hstep
          dsimp only at hstep
          have hlangs : langs = extractRawLocales env doc so.lang :=
            (Option.some.inj hstep).symm
          subst hlangs
          rw [loadStyles_single_fetch env st
            { eff with scopeLoads := eff.scopeLoads + 1 } sty doc hc' hf]
          exact ⟨mapSet st.styleCache sty doc, eff.styleFetches + 1, sty, rfl⟩

/-- Lemma: whichever of the three scope-construction steps throws, the whole
`loadScopedEngine` call logs exactly one console error, builds no engine,
touches only the style/locale caches and fetch/conversion counters, and
returns the manager itself — the global scope of its input state. -/
theorem loadScopedEngine_fallback (env : Env) (st : BibManagerState)
    (eff : Effects) (so : ScopedSettings)
    (hfail : ScopeLoadFails env st.styleCache st.langCache so) :
    ∃ lc sc a m c,
      loadScopedEngine env st eff (some so) =
        ({ st with langCache := lc, styleCache := sc },
         { eff with styleFetches := a, langFetches := m, bibConverts := c,
                    consoleErrors := eff.consoleErrors + 1,
                    scopeLoads := eff.scopeLoads + 1 },
         globalSource st) := by
  rcases hfail with ⟨sty, hsty, hne, hnc, hf⟩ | ⟨l, langs, hl, hlne, hstep, hfl⟩ |
    ⟨b, langs, hb, hbne, hstep, hok, hconv⟩
  · rw [loadScopedEngine_style_fail env st eff so sty hsty hne hnc hf]
    exact ⟨st.langCache, st.styleCache, eff.styleFetches + 1, eff.langFetches,
      eff.bibConverts, rfl⟩
  · obtain ⟨sc, a, style, heq⟩ := loadScopedEngine_styleOk env st eff so langs hstep
    rw [heq]
    obtain ⟨lc, m, hls⟩ := loadScopedLangStep_lang_fail env so
      (env.cslLang.getD "en-US") st.bibCache st.fuse
      { st with styleCache := sc }
      { eff with styleFetches := a, scopeLoads := eff.scopeLoads + 1 }
      style langs l hl hlne hfl
    rw [hls]
    exact ⟨lc, sc, a, m, eff.bibConverts, rfl⟩
  · obtain ⟨sc, a, style, heq⟩ := loadScopedEngine_styleOk env st eff so langs hstep
    rw [heq]
    obtain ⟨lc, m, c, hls⟩ := loadScopedLangStep_bib_fail env so
      (env.cslLang.getD "en-US") st.bibCache st.fuse
      { st with styleCache := sc }
      { eff with styleFetches := a, scopeLoads := eff.scopeLoads + 1 }
      style langs b hb hbne hconv hok
    rw [hls]
    exact ⟨lc, sc, a, m, c, rfl⟩

/-- The groups handed to the citation renderer by `finishPass`: none when
the scope has no engine, and exactly the groups whose every citation id is
in the scope's lookup otherwise. -/
theorem finishPass_citeArgs (file : String) (s : Option ScopedSettings)
    (P : List ProcessedGroup) (ck : List String) (cachedDoc : Option FileCache)
    (aSE : Bool) (source : Source) (st : BibManagerState) (eff : Effects) :
    (finishPass file s P ck cachedDoc aSE source st eff).2.1.citeArgs =
      (match source.engine with
      | none => eff.citeArgs
      | some _ => eff.citeArgs ++
          [P.filter (fun g => g.citations.all (fun c => mapHas source.bibCache c.id))]) := by
  cases hsrc : source.engine with
  | none =>
    unfold finishPass setNull
    rw [hsrc]
  | some eng =>
    unfold finishPass renderAndStore setNull cite makeBibliography
    rw [hsrc]
    dsimp only
    rw [filterAndRecord_fst]
    repeat' split
    all_goals rfl

/-- Claim C4 (amended): when any step of scope construction in
`loadScopedEngine` throws — the style load, the locale load, or the
bibliography conversion — the failure is logged to the console (exactly one
`console.error`), no scoped engine is built, and `loadScopedEngine` returns
the manager itself: the pass uses the manager's global scope and resolution
proceeds with the global engine and bibliography (the renderer receives the
groups filtered against the global lookup, and every stored entry carries
the global source). Only when the global engine is also absent does the
pass store a result with no citations, no bibliography and empty
resolved/unresolved key sets, returning `null`. No error is raised to the
caller (every failure case yields a normal result). -/
theorem loadScopedEngine_failure_amended (env : Env) (st : BibManagerState)
    (eff : Effects) (file : String) (P : List ProcessedGroup)
    (so : ScopedSettings) (hP : P ≠ [])
    (hfail : ScopeLoadFails env st.styleCache st.langCache so)
    (hnr : ((st.fileCache.peekVal file).isSome && scopedEq (some so)
      ((st.fileCache.peekVal file).bind (fun c => c.settings))) = false) :
    (getReferenceList env st eff file P (some so)).2.1.consoleErrors =
      eff.consoleErrors + 1 ∧
    (getReferenceList env st eff file P (some so)).2.1.usedSource =
      some (globalSource st) ∧
    (getReferenceList env st eff file P (some so)).2.1.engineBuilds =
      eff.engineBuilds ∧
    (∀ fe ∈ ((getReferenceList env st eff file P (some so)).2.1.dispatches.drop
        eff.dispatches.length),
      fe.1 = file ∧ fe.2.keys = collectKeys P ∧ fe.2.source = globalSource st) ∧
    (st.engine = none →
      (getReferenceList env st eff file P (some so)).2.2 = none ∧
      (getReferenceList env st eff file P (some so)).2.1.dispatches.drop
        eff.dispatches.length =
        [(file, ⟨collectKeys P, [], [], none, [], [], none, globalSource st⟩)]) ∧
    (st.engine.isSome = true →
      (getReferenceList env st eff file P (some so)).2.1.citeArgs =
        eff.citeArgs ++ [P.filter (fun g =>
          g.citations.all (fun c => mapHas st.bibCache c.id))]) := by
  rw [grl_build_eq env st eff file P (some so) hP hnr]
  obtain ⟨lc, sc, a, m, c, hfb⟩ := loadScopedEngine_fallback env
    { st with fileCache := (st.fileCache.get file).2 } eff so hfail
  have hfb' : loadScopedEngine env
      { st with fileCache := (st.fileCache.get file).2 } eff (some so) =
      ({ st with
          fileCache := (st.fileCache.get file).2
          langCache := lc
          styleCache := sc },
       { eff with
          styleFetches := a
          langFetches := m
          bibConverts := c
          consoleErrors := eff.consoleErrors + 1
          scopeLoads := eff.scopeLoads + 1 },
       globalSource st) := by rw [hfb]; rfl
  rw [hfb']
  have hfp := finishPass_eff file (some so) P (collectKeys P)
    (st.fileCache.peekVal file)
    (scopedEq (some so) ((st.fileCache.peekVal file).bind (fun cc => cc.settings)))
    (globalSource st)
    { st with
      fileCache := (st.fileCache.get file).2
      langCache := lc
      styleCache := sc }
    { eff with
      styleFetches := a
      langFetches := m
      bibConverts := c
      consoleErrors := eff.consoleErrors + 1
      scopeLoads := eff.scopeLoads + 1
      usedSource := some (globalSource st) }
  refine ⟨hfp.2.2.2.2.2.2, hfp.1, hfp.2.2.2.2.2.1, ?_, ?_, ?_⟩
  · intro fe hfe
    have hd := finishPass_dispatch_entries file (some so) P
      (st.fileCache.peekVal file)
      (scopedEq (some so) ((st.fileCache.peekVal file).bind (fun cc => cc.settings)))
      (globalSource st)
      { st with
        fileCache := (st.fileCache.get file).2
        langCache := lc
        styleCache := sc }
      { eff with
        styleFetches := a
        langFetches := m
        bibConverts := c
        consoleErrors := eff.consoleErrors + 1
        scopeLoads := eff.scopeLoads + 1
        usedSource := some (globalSource st) } fe hfe
    exact ⟨hd.1, hd.2.1, hd.2.2.1⟩
  · intro hge
    rw [finishPass_none_eq file (some so) P (collectKeys P)
      (st.fileCache.peekVal file)
      (scopedEq (some so) ((st.fileCache.peekVal file).bind (fun cc => cc.settings)))
      (globalSource st)
      { st with
        fileCache := (st.fileCache.get file).2
        langCache := lc
        styleCache := sc }
      { eff with
        styleFetches := a
        langFetches := m
        bibConverts := c
        consoleErrors := eff.consoleErrors + 1
        scopeLoads := eff.scopeLoads + 1
        usedSource := some (globalSource st) }
      (show (globalSource st).engine = none from hge)]
    exact ⟨rfl, List.drop_left _ _⟩
  · intro hge
    obtain ⟨geng, hgeq⟩ := Option.isSome_iff_exists.mp hge
    have hca := finishPass_citeArgs file (some so) P (collectKeys P)
      (st.fileCache.peekVal file)
      (scopedEq (some so) ((st.fileCache.peekVal file).bind (fun cc => cc.settings)))
      (globalSource st)
      { st with
        fileCache := (st.fileCache.get file).2
        langCache := lc
        styleCache := sc }
      { eff with
        styleFetches := a
        langFetches := m
        bibConverts := c
        consoleErrors := eff.consoleErrors + 1
        scopeLoads := eff.scopeLoads + 1
        usedSource := some (globalSource st) }
    rw [show (globalSource st).engine = some geng from hgeq] at hca
    exact hca

/-- Witness for the amended C4 at a concrete input: the style-load failure
mode on a manager with no global engine logs one console error, uses the
global (engine-less) scope and returns `null`. -/
theorem loadScopedEngine_failure_amended_witness :
    (getReferenceList cenvFail cstNoEng eff0 "f" [g1]
      (some ⟨some "mystyle", none, none⟩)).2.1.consoleErrors = 1 ∧
    (getReferenceList cenvFail cstNoEng eff0 "f" [g1]
      (some ⟨some "mystyle", none, none⟩)).2.1.usedSource =
      some (globalSource cstNoEng) ∧
    (getReferenceList cenvFail cstNoEng eff0 "f" [g1]
      (some ⟨some "mystyle", none, none⟩)).2.2 = none := by
  have h := loadScopedEngine_failure_amended cenvFail cstNoEng eff0 "f" [g1]
    ⟨some "mystyle", none, none⟩ (by decide)
    (Or.inl ⟨"mystyle", rfl, by decide, rfl, rfl⟩) rfl
  exact ⟨h.1, h.2.1, (h.2.2.2.2.1 rfl).1⟩

/-- The coverage half of claim C6: every citation id of every group lands
in the stored entry's resolved/unresolved partition. -/
theorem coverage_of_stored (bc : List (String × PartialCSLEntry))
    (P : List ProcessedGroup)
    (hids : ∀ g ∈ P, ∀ c ∈ g.citations, c.id ≠ "") (fe : String × FileCache)
    (hrk : fe.2.resolvedKeys = (filterAndRecord bc P
      (partitionKeys bc (collectKeys P)).1 (partitionKeys bc (collectKeys P)).2).2.1)
    (huk : fe.2.unresolvedKeys = (filterAndRecord bc P
      (partitionKeys bc (collectKeys P)).1 (partitionKeys bc (collectKeys P)).2).2.2) :
    ∀ g ∈ P, ∀ c ∈ g.citations,
      c.id ∈ fe.2.resolvedKeys ∨ c.id ∈ fe.2.unresolvedKeys := by
  intro g hg c hc
  rw [hrk, huk]
  exact (partition_filter_good bc P hids).2.2 _
    (collectKeys_mem hg hc (hids g hg c hc))

/-- Claim C6: in a pass with a usable engine, the citation renderer is
invoked with exactly the groups whose *every* member citation id is present
in the scope's bibliography lookup (a group with any unresolved citation is
excluded); and every citation id of every group — excluded groups included
— still appears in the stored resolved/unresolved partition. -/
theorem getReferenceList_group_filter (env : Env) (st : BibManagerState)
    (eff : Effects) (file : String) (P : List ProcessedGroup)
    (s : Option ScopedSettings) (src : Source) (eng : Engine) (hP : P ≠ [])
    (hids : ∀ g ∈ P, ∀ c ∈ g.citations, c.id ≠ "")
    (hsrc : (getReferenceList env st eff file P s).2.1.usedSource = some src)
    (heng : src.engine = some eng) :
    (getReferenceList env st eff file P s).2.1.citeArgs = eff.citeArgs ++
      [P.filter (fun g => g.citations.all (fun c => mapHas src.bibCache c.id))] ∧
    ∀ fe ∈ ((getReferenceList env st eff file P s).2.1.dispatches.drop
        eff.dispatches.length),
      ∀ g ∈ P, ∀ c ∈ g.citations,
        c.id ∈ fe.2.resolvedKeys ∨ c.id ∈ fe.2.unresolvedKeys := by
  by_cases hb : ((st.fileCache.peekVal file).isSome &&
      scopedEq s ((st.fileCache.peekVal file).bind (fun c => c.settings))) = true
  · rcases Bool.and_eq_true_iff.mp hb with ⟨hs, hse⟩
    obtain ⟨e, he⟩ := Option.isSome_iff_exists.mp hs
    rw [he] at hse
    have hse' : scopedEq s e.settings = true := hse
    rw [grl_reuse_eq env st eff file P s hP he hse'] at hsrc ⊢
    have hus := (finishPass_eff file s P (collectKeys P) (some e) true e.source
      { st with fileCache := (st.fileCache.get file).2 }
      { eff with usedSource := some e.source }).1
    rw [hus] at hsrc
    have hes : e.source = src := Option.some.inj hsrc
    constructor
    · rw [finishPass_citeArgs, hes, heng]
    · intro fe hfe
      obtain ⟨_, hkeys, hsrcfe, _, hsome⟩ :=
        finishPass_dispatch_entries file s P (some e) true e.source
          { st with fileCache := (st.fileCache.get file).2 }
          { eff with usedSource := some e.source } fe hfe
      obtain ⟨hrk, huk⟩ := hsome (by rw [hes, heng]; rfl)
      exact coverage_of_stored e.source.bibCache P hids fe hrk huk
  · have hb' : ((st.fileCache.peekVal file).isSome &&
        scopedEq s ((st.fileCache.peekVal file).bind (fun c => c.settings))) =
        false := by
      cases h : ((st.fileCache.peekVal file).isSome &&
        scopedEq s ((st.fileCache.peekVal file).bind (fun c => c.settings)))
      · rfl
      · exact absurd h hb
    rw [grl_build_eq env st eff file P s hP hb'] at hsrc ⊢
    obtain ⟨lc, sc, a, b, c, d, e, srcv, hsh⟩ :=
      loadScopedEngine_shape env
        { st with fileCache := (st.fileCache.get file).2 } eff s
    have hsh' : loadScopedEngine env
        { st with fileCache := (st.fileCache.get file).2 } eff s =
        ({ st with
            fileCache := (st.fileCache.get file).2
            langCache := lc
            styleCache := sc },
         { eff with
            styleFetches := a
            langFetches := b
            bibConverts := c
            engineBuilds := d
            consoleErrors := e
            scopeLoads := eff.scopeLoads + 1 }, srcv) := by rw [hsh]
    rw [hsh'] at hsrc ⊢
    have hus := (finishPass_eff file s P (collectKeys P)
      (st.fileCache.peekVal file)
      (scopedEq s ((st.fileCache.peekVal file).bind (fun c => c.settings)))
      srcv
      { st with
        fileCache := (st.fileCache.get file).2
        langCache := lc
        styleCache := sc }
      { eff with
        styleFetches := a
        langFetches := b
        bibConverts := c
        engineBuilds := d
        consoleErrors := e
        scopeLoads := eff.scopeLoads + 1
        usedSource := some srcv }).1
    rw [hus] at hsrc
    have hes : srcv = src := Option.some.inj hsrc
    constructor
    · rw [finishPass_citeArgs, hes, heng]
    · intro fe hfe
      obtain ⟨_, hkeys, hsrcfe, _, hsome⟩ :=
        finishPass_dispatch_entries file s P (st.fileCache.peekVal file)
          (scopedEq s ((st.fileCache.peekVal file).bind (fun c => c.settings)))
          srcv
          { st with
            fileCache := (st.fileCache.get file).2
            langCache := lc
            styleCache := sc }
          { eff with
            styleFetches := a
            langFetches := b
            bibConverts := c
            engineBuilds := d
            consoleErrors := e
            scopeLoads := eff.scopeLoads + 1
            usedSource := some srcv } fe hfe
      obtain ⟨hrk, huk⟩ := hsome (by rw [hes, heng]; rfl)
      rw [hes] at hrk huk
      exact coverage_of_stored src.bibCache P hids fe hrk huk

/-- Witness for C6 at a concrete input: the engine-backed pass over `[g1]`
hands the renderer exactly the fully-resolved groups. -/
theorem getReferenceList_group_filter_witness :
    (getReferenceList cenv cst eff0 "f" [g1] none).2.1.citeArgs =
      eff0.citeArgs ++
      [[g1].filter (fun g => g.citations.all (fun c =>
        mapHas (globalSource cst).bibCache c.id))] := by
  have h := getReferenceList_group_filter cenv cst eff0 "f" [g1] none
    (globalSource cst) eng0 (by decide)
    (by intro g hg c hc
        rcases List.mem_singleton.mp hg with rfl
        rcases List.mem_singleton.mp hc with rfl
        decide) rfl rfl
  exact h.1

/-- Claim C7 as stated is false: when `makeBibliography` returns a present
result with zero entries, the stored result is not treated as fully null —
the rendered citations (here one) *are* stored, with their settings; only
the bibliography itself is null. -/
theorem getReferenceList_empty_bib_cex :
    ((getReferenceList cenv cstEmptyBib eff0 "f" [g1] none).1.fileCache.peekVal
      "f").map (fun e => e.bib) = some none ∧
    ((getReferenceList cenv cstEmptyBib eff0 "f" [g1] none).1.fileCache.peekVal
      "f").map (fun e => e.citations) = some [rc0] ∧
    ((getReferenceList cenv cstEmptyBib eff0 "f" [g1] none).1.fileCache.peekVal
      "f").map (fun e => e.resolvedKeys) = some ["a"] ∧
    (getReferenceList cenv cstEmptyBib eff0 "f" [g1] none).2.2 = none := by
  decide

/-- Lemma: when the engine holds zero bibliography entries, `renderAndStore`
returns `null` and dispatches exactly one entry with no bibliography;
citations and settings are cleared exactly when the `makeBibliography`
result was falsy (the `setNull` fallback), and kept otherwise. -/
theorem renderAndStore_zero (file : String) (s : Option ScopedSettings)
    (citeKeys rk uk : List String) (citations : List RenderedCitation)
    (source : Source) (eng : Engine) (st : BibManagerState) (eff : Effects)
    (hz : bibEntriesOf eng = []) :
    (renderAndStore file s citeKeys rk uk citations source eng st eff).2.2 =
      none ∧
    ((renderAndStore file s citeKeys rk uk citations source eng
        st eff).2.1.dispatches.drop eff.dispatches.length).length = 1 ∧
    ∀ fe ∈ ((renderAndStore file s citeKeys rk uk citations source eng
        st eff).2.1.dispatches.drop eff.dispatches.length),
      fe.2.bib = none ∧
      fe.2.citations = (match eng.bibResult with
        | none => ([] : List RenderedCitation)
        | some _ => citations) ∧
      fe.2.settings = (match eng.bibResult with
        | none => (none : Option ScopedSettings)
        | some _ => s) := by
  unfold renderAndStore makeBibliography setNull
  dsimp only
  cases hbib : eng.bibResult with
  | none =>
    dsimp only
    refine ⟨rfl, ?_, ?_⟩
    · rw [show ∀ (l : List (String × FileCache)) (x : String × FileCache),
        List.drop l.length (l ++ [x]) = [x] from fun l x => List.drop_left _ _]
      rfl
    · intro fe hfe
      rw [show ∀ (l : List (String × FileCache)) (x : String × FileCache),
        List.drop l.length (l ++ [x]) = [x] from fun l x => List.drop_left _ _]
        at hfe
      rcases List.mem_singleton.mp hfe with rfl
      exact ⟨rfl, rfl, rfl⟩
  | some r =>
    obtain ⟨metadata, entries⟩ := r
    have hent : entries = [] := by
      unfold bibEntriesOf at hz
      rw [hbib] at hz
      exact hz
    subst hent
    dsimp only
    rw [if_neg (by simp : ¬ ([] : List String).length ≠ 0)]
    dsimp only
    refine ⟨rfl, ?_, ?_⟩
    · rw [show ∀ (l : List (String × FileCache)) (x : String × FileCache),
        List.drop l.length (l ++ [x]) = [x] from fun l x => List.drop_left _ _]
      rfl
    · intro fe hfe
      rw [show ∀ (l : List (String × FileCache)) (x : String × FileCache),
        List.drop l.length (l ++ [x]) = [x] from fun l x => List.drop_left _ _]
        at hfe
      rcases List.mem_singleton.mp hfe with rfl
      exact ⟨rfl, rfl, rfl⟩

/-- Claim C7 (amended): when a pass reaches `makeBibliography` (exactly one
`makeBibliography` call happens — change suppression did not fire) and the
engine yields zero bibliography entries (a falsy result or a present one
with an empty entry list), the pass stores a result with no bibliography
and returns `null`; citations and settings are cleared only when the result
was absent (the `setNull` fallback), while a present zero-entry result
keeps the rendered citations and the scoped settings in the stored entry.
Stated for any pass, cached document or not. -/
theorem getReferenceList_empty_bib_amended (env : Env) (st : BibManagerState)
    (eff : Effects) (file : String) (P : List ProcessedGroup)
    (s : Option ScopedSettings) (src : Source) (eng : Engine) (hP : P ≠ [])
    (hsrc : (getReferenceList env st eff file P s).2.1.usedSource = some src)
    (heng : src.engine = some eng)
    (hz : bibEntriesOf eng = [])
    (hbc : (getReferenceList env st eff file P s).2.1.bibCalls =
      eff.bibCalls + 1) :
    (getReferenceList env st eff file P s).2.2 = none ∧
    ((getReferenceList env st eff file P s).2.1.dispatches.drop
      eff.dispatches.length).length = 1 ∧
    ∀ fe ∈ ((getReferenceList env st eff file P s).2.1.dispatches.drop
        eff.dispatches.length),
      fe.2.bib = none ∧
      fe.2.citations = (match eng.bibResult with
        | none => ([] : List RenderedCitation)
        | some _ => eng.renderCitations (P.filter (fun g =>
            g.citations.all (fun c => mapHas src.bibCache c.id)))) ∧
      fe.2.settings = (match eng.bibResult with
        | none => (none : Option ScopedSettings)
        | some _ => s) := by
  by_cases hre : ((st.fileCache.peekVal file).isSome &&
      scopedEq s ((st.fileCache.peekVal file).bind (fun c => c.settings))) = true
  · rcases Bool.and_eq_true_iff.mp hre with ⟨hs, hse⟩
    obtain ⟨e, he⟩ := Option.isSome_iff_exists.mp hs
    rw [he] at hse
    have hse' : scopedEq s e.settings = true := hse
    rw [grl_reuse_eq env st eff file P s hP he hse'] at hsrc hbc ⊢
    have hus := (finishPass_eff file s P (collectKeys P) (some e) true e.source
      { st with fileCache := (st.fileCache.get file).2 }
      { eff with usedSource := some e.source }).1
    rw [hus] at hsrc
    have hes : e.source = src := Option.some.inj hsrc
    rw [hes] at hbc ⊢
    unfold finishPass at hbc ⊢
    rw [heng] at hbc ⊢
    dsimp only at hbc ⊢
    rw [filterAndRecord_fst] at hbc ⊢
    dsimp only [cite] at hbc ⊢
    rw [Bool.and_true] at hbc ⊢
    by_cases hsup : (e.citations == eng.renderCitations (P.filter (fun g =>
        g.citations.all (fun c => mapHas src.bibCache c.id)))) = true
    · rw [if_pos hsup] at hbc
      dsimp only at hbc
      exact absurd hbc (by omega)
    · rw [if_neg hsup]
      exact renderAndStore_zero file s (collectKeys P) _ _ _ src eng
        { st with fileCache := (st.fileCache.get file).2 } _ hz
  · have hre' : ((st.fileCache.peekVal file).isSome &&
        scopedEq s ((st.fileCache.peekVal file).bind (fun c => c.settings))) =
        false := Bool.eq_false_iff.mpr hre
    rw [grl_build_eq env st eff file P s hP hre'] at hsrc ⊢
    obtain ⟨lc, sc, a, b, c, d, e, srcv, hsh⟩ :=
      loadScopedEngine_shape env
        { st with fileCache := (st.fileCache.get file).2 } eff s
    have hsh' : loadScopedEngine env
        { st with fileCache := (st.fileCache.get file).2 } eff s =
        ({ st with
            fileCache := (st.fileCache.get file).2
            langCache := lc
            styleCache := sc },
         { eff with
            styleFetches := a
            langFetches := b
            bibConverts := c
            engineBuilds := d
            consoleErrors := e
            scopeLoads := eff.scopeLoads + 1 }, srcv) := by rw [hsh]
    rw [hsh'] at hsrc ⊢
    have hus := (finishPass_eff file s P (collectKeys P)
      (st.fileCache.peekVal file)
      (scopedEq s ((st.fileCache.peekVal file).bind (fun c => c.settings)))
      srcv
      { st with
        fileCache := (st.fileCache.get file).2
        langCache := lc
        styleCache := sc }
      { eff with
        styleFetches := a
        langFetches := b
        bibConverts := c
        engineBuilds := d
        consoleErrors := e
        scopeLoads := eff.scopeLoads + 1
        usedSource := some srcv }).1
    rw [hus] at hsrc
    have hes : srcv = src := Option.some.inj hsrc
    rw [hes]
    cases hpeek : st.fileCache.peekVal file with
    | none =>
      unfold finishPass
      rw [heng]
      dsimp only
      rw [filterAndRecord_fst]
      dsimp only [cite]
      exact renderAndStore_zero file s (collectKeys P) _ _ _ src eng
        { st with
          fileCache := (st.fileCache.get file).2
          langCache := lc
          styleCache := sc } _ hz
    | some ce =>
      rw [hpeek] at hre'
      simp only [Option.isSome_some, Bool.true_and] at hre'
      have haSE : scopedEq s ce.settings = false := hre'
      unfold finishPass
      rw [heng]
      dsimp only [Option.bind, cite]
      rw [filterAndRecord_fst]
      rw [haSE, Bool.and_false]
      rw [if_neg Bool.false_ne_true]
      exact renderAndStore_zero file s (collectKeys P) _ _ _ src eng
        { st with
          fileCache := (st.fileCache.get file).2
          langCache := lc
          styleCache := sc } _ hz

/-- Witness for the amended C7 at a concrete input: the zero-entry
engine `engEmptyBib` yields a stored entry with `bib = null` but the
rendered citation kept, and the pass returns `null`. -/
theorem getReferenceList_empty_bib_amended_witness :
    (getReferenceList cenv cstEmptyBib eff0 "f" [g1] none).2.2 = none ∧
    ((getReferenceList cenv cstEmptyBib eff0 "f" [g1] none).2.1.dispatches.drop
      eff0.dispatches.length).length = 1 := by
  have h := getReferenceList_empty_bib_amended cenv cstEmptyBib eff0 "f" [g1]
    none (globalSource cstEmptyBib) engEmptyBib (by decide) rfl rfl rfl rfl
  exact ⟨h.1, h.2.1⟩

/-- Lemma: `finishPass` either leaves the file cache untouched (change
suppression) or performs exactly one LRU insertion for the file. -/
theorem finishPass_fileCache (file : String) (s : Option ScopedSettings)
    (P : List ProcessedGroup) (ck : List String) (cachedDoc : Option FileCache)
    (aSE : Bool) (source : Source) (st : BibManagerState) (eff : Effects) :
    (finishPass file s P ck cachedDoc aSE source st eff).1.fileCache =
      st.fileCache ∨
    ∃ e, (finishPass file s P ck cachedDoc aSE source st eff).1.fileCache =
      st.fileCache.set file e := by
  unfold finishPass renderAndStore setNull cite makeBibliography
  dsimp only
  repeat' split
  all_goals first
    | exact Or.inl rfl
    | exact Or.inr ⟨_, rfl⟩

/-- A `finishPass` step keeps the file-cache capacity and size bound. -/
theorem finishPass_fileCache_bound (file : String) (s : Option ScopedSettings)
    (P : List ProcessedGroup) (ck : List String) (cachedDoc : Option FileCache)
    (aSE : Bool) (source : Source) (st : BibManagerState) (eff : Effects)
    (hmax : st.fileCache.max = 10) (hsz : st.fileCache.items.length ≤ 10) :
    (finishPass file s P ck cachedDoc aSE source st eff).1.fileCache.max = 10 ∧
    (finishPass file s P ck cachedDoc aSE source st eff).1.fileCache.items.length
      ≤ 10 := by
  rcases finishPass_fileCache file s P ck cachedDoc aSE source st eff with
    h | ⟨e, h⟩
  · rw [h]; exact ⟨hmax, hsz⟩
  · rw [h]
    refine ⟨by rw [lru_set_max]; exact hmax, ?_⟩
    calc (st.fileCache.set file e).items.length ≤ st.fileCache.max :=
        lru_set_len_le _ _ _
      _ = 10 := hmax

/-- A `getReferenceList` pass keeps the file-cache capacity and size bound. -/
theorem grl_fileCache_bound (env : Env) (st : BibManagerState) (eff : Effects)
    (file : String) (P : List ProcessedGroup) (s : Option ScopedSettings)
    (hmax : st.fileCache.max = 10) (hsz : st.fileCache.items.length ≤ 10) :
    (getReferenceList env st eff file P s).1.fileCache.max = 10 ∧
    (getReferenceList env st eff file P s).1.fileCache.items.length ≤ 10 := by
  have hgmax : ((st.fileCache.get file).2).max = 10 := by
    rw [lru_get_max]; exact hmax
  have hgsz : ((st.fileCache.get file).2).items.length ≤ 10 :=
    le_trans (lru_get_len_le _ _) hsz
  by_cases hPe : P = []
  · subst hPe
    exact ⟨hmax, hsz⟩
  · by_cases hb : ((st.fileCache.peekVal file).isSome &&
        scopedEq s ((st.fileCache.peekVal file).bind (fun c => c.settings))) = true
    · rcases Bool.and_eq_true_iff.mp hb with ⟨hs, hse⟩
      obtain ⟨e, he⟩ := Option.isSome_iff_exists.mp hs
      rw [he] at hse
      have hse' : scopedEq s e.settings = true := hse
      rw [grl_reuse_eq env st eff file P s hPe he hse']
      exact finishPass_fileCache_bound file s P (collectKeys P) (some e) true
        e.source { st with fileCache := (st.fileCache.get file).2 }
        { eff with usedSource := some e.source } hgmax hgsz
    · have hb' : ((st.fileCache.peekVal file).isSome &&
          scopedEq s ((st.fileCache.peekVal file).bind (fun c => c.settings))) =
          false := by
        cases h : ((st.fileCache.peekVal file).isSome &&
          scopedEq s ((st.fileCache.peekVal file).bind (fun c => c.settings)))
        · rfl
        · exact absurd h hb
      rw [grl_build_eq env st eff file P s hPe hb']
      obtain ⟨lc, sc, a, b, c, d, e, srcv, hsh⟩ :=
        loadScopedEngine_shape env
          { st with fileCache := (st.fileCache.get file).2 } eff s
      have hsh' : loadScopedEngine env
          { st with fileCache := (st.fileCache.get file).2 } eff s =
          ({ st with
              fileCache := (st.fileCache.get file).2
              langCache := lc
              styleCache := sc },
           { eff with
              styleFetches := a
              langFetches := b
              bibConverts := c
              engineBuilds := d
              consoleErrors := e
              scopeLoads := eff.scopeLoads + 1 }, srcv) := by rw [hsh]
      rw [hsh']
      exact finishPass_fileCache_bound file s P (collectKeys P)
        (st.fileCache.peekVal file)
        (scopedEq s ((st.fileCache.peekVal file).bind (fun c => c.settings)))
        srcv
        { st with
          fileCache := (st.fileCache.get file).2
          langCache := lc
          styleCache := sc }
        { eff with
          styleFetches := a
          langFetches := b
          bibConverts := c
          engineBuilds := d
          consoleErrors := e
          scopeLoads := eff.scopeLoads + 1
          usedSource := some srcv } hgmax hgsz

/-- Any sequence of resolution passes keeps the file-cache capacity and
size bound. -/
theorem runPasses_bound (env : Env) (inputs : List PassInput) :
    ∀ (st : BibManagerState) (eff : Effects), st.fileCache.max = 10 →
    st.fileCache.items.length ≤ 10 →
    (runPasses env st eff inputs).1.fileCache.max = 10 ∧
    (runPasses env st eff inputs).1.fileCache.items.length ≤ 10 := by
  induction inputs with
  | nil => intro st eff h1 h2; exact ⟨h1, h2⟩
  | cons inp rest ih =>
    intro st eff h1 h2
    obtain ⟨h1', h2'⟩ :=
      grl_fileCache_bound env st eff inp.file inp.groups inp.settings h1 h2
    exact ih _ _ h1' h2'

/-- Claim C8: starting from any manager state whose file cache has the
constructor's capacity 10 and at most 10 entries (in particular the fresh
`newFileCache`), every sequence of `getReferenceList` passes leaves at most
10 cached documents; and inserting an 11th distinct document into a full
cache evicts exactly the least-recently-used entry (the last of the
recency-ordered items), keeping the size at 10. -/
theorem fileCache_capacity (env : Env) (st : BibManagerState) (eff : Effects)
    (inputs : List PassInput) (c : LRU FileCache) (k : String) (v : FileCache)
    (hmax : st.fileCache.max = 10) (hsize : st.fileCache.items.length ≤ 10)
    (hcmax : c.max = 10) (hclen : c.items.length = 10)
    (hcfresh : c.has k = false) :
    (runPasses env st eff inputs).1.fileCache.items.length ≤ 10 ∧
    (c.set k v).items = (k, v) :: c.items.dropLast ∧
    (c.set k v).items.length = 10 := by
  obtain ⟨hev1, hev2⟩ := lru_set_evict v hcmax hclen hcfresh
  exact ⟨(runPasses_bound env inputs st eff hmax hsize).2, hev1, hev2⟩

/-- Witness for C8 at concrete inputs: one pass from the constructor state
keeps at most 10 entries, and inserting the fresh key `f` into the full
10-entry cache `fullCache` evicts its last entry. -/
theorem fileCache_capacity_witness :
    (runPasses cenv cst eff0 [⟨"f", [g1], none⟩]).1.fileCache.items.length ≤ 10 ∧
    (fullCache.set "f" fcCrash).items.length = 10 := by
  have h := fileCache_capacity cenv cst eff0 [⟨"f", [g1], none⟩] fullCache "f"
    fcCrash rfl (by decide) rfl (by decide) (by decide)
  exact ⟨h.1, h.2.2⟩

/-- Claim C9: `loadStyles` performs no fetch and leaves state and effects
unchanged for a style whose cache key (`explicitPath ?? id`) is already in
the style cache; an uncached style is fetched once and memoized under that
key; and symmetrically `loadLangs` performs no fetch and changes nothing
for a locale already in the locale cache. -/
theorem loadStyles_loadLangs_memoize (env : Env) (st : BibManagerState)
    (eff : Effects) (sr1 sr2 : StyleRef) (doc : String) (l : String)
    (h1 : mapHas st.styleCache
      ((sr1.explicitPath.orElse (fun _ => sr1.id)).getD "") = true)
    (h2 : (sr2.id.isNone && sr2.explicitPath.isNone) = false)
    (h3 : mapHas st.styleCache
      ((sr2.explicitPath.orElse (fun _ => sr2.id)).getD "") = false)
    (h4 : env.styleFetch sr2.id sr2.explicitPath = some doc)
    (h5 : mapHas st.langCache l = true) :
    loadStyles env st eff [sr1] [] = (st, eff, some []) ∧
    loadStyles env st eff [sr2] [] =
      ({ st with styleCache := (mapSet st.styleCache ((sr2.explicitPath.orElse (fun _ => sr2.id)).getD "") doc) },
       { eff with styleFetches := eff.styleFetches + 1 }, some [doc]) ∧
    loadLangs env st eff [l] = (st, eff, true) := by
  refine ⟨?_, ?_, ?_⟩
  · unfold loadStyles
    by_cases hg : (sr1.id.isNone && sr1.explicitPath.isNone) = true
    · rw [hg]
      rfl
    · have hg' : (sr1.id.isNone && sr1.explicitPath.isNone) = false := by
        cases h : (sr1.id.isNone && sr1.explicitPath.isNone)
        · rfl
        · exact absurd h hg
      rw [hg', h1]
      rfl
  · unfold loadStyles getCSLStyle
    rw [h2, h3, h4]
    rfl
  · unfold loadLangs
    by_cases hl : (l == "") = true
    · rw [hl]
      rfl
    · have hl' : (l == "") = false := by
        cases h : (l == "")
        · rfl
        · exact absurd h hl
      rw [hl', h5]
      rfl

/-- Witness for C9 at concrete inputs: `s1` is cached in `cst9` so loading
it again changes nothing; `s2`/`p2` is uncached so it is fetched once and
memoized under its `explicitPath`; `en-US` is cached in the locale cache so
loading it again changes nothing. -/
theorem loadStyles_loadLangs_memoize_witness :
    loadStyles cenv cst9 eff0 [⟨some "s1", none⟩] [] = (cst9, eff0, some []) ∧
    loadStyles cenv cst9 eff0 [⟨some "s2", some "p2"⟩] [] =
      ({ cst9 with styleCache := (mapSet cst9.styleCache (((some "p2").orElse (fun _ => some "s2")).getD "") "<style/>") },
       { eff0 with styleFetches := eff0.styleFetches + 1 }, some ["<style/>"]) ∧
    loadLangs cenv cst9 eff0 ["en-US"] = (cst9, eff0, true) := by
  exact loadStyles_loadLangs_memoize cenv cst9 eff0 ⟨some "s1", none⟩
    ⟨some "s2", some "p2"⟩ "<style/>" "en-US" (by decide) (by decide)
    (by decide) rfl (by decide)

/-- Claim C10 is a code bug: `getNoteForNoteIndex` reads `.note` from the
result of `citations.find(...)` without checking for a miss, so when the
file *is* cached but no cached citation has the requested note index, the
call throws a `TypeError` rather than returning `null`; the missing-file
path does return `null`. -/
theorem getNoteForNoteIndex_crash :
    (getNoteForNoteIndex cstCrash "f" "5").2 =
      Except.error "TypeError: Cannot read properties of undefined" ∧
    (getNoteForNoteIndex cstNoEng "f" "5").2 = Except.ok none :=
  ⟨rfl, rfl⟩

end PandocRefList
